import Mathlib

/-!
Verification of the dark-factory task-graph engine.

This file gives a shallow embedding, in Lean 4, of the core of the
dark-factory CLI (a TypeScript program):

* the task-graph data model (`src/config/types.ts`),
* the `TaskGraph` class operations (`src/core/task-graph.ts`):
  `readyTasks`, `setStatus`, `resetInterruptedTasks`, `amendTask`,
  `incrementAttempts`, `nextTaskId`, `dependents`, `transitiveDownstream`,
  `moveDeps`, `addDep`, together with the `load`/`save` persistence layer,
* the recovery-state deriver (`src/commands/task-state.ts`),
* the worktree merge protocol (`src/core/worktree.ts`),

and proves the specification claims about them.

Conventions of the embedding:

* A JavaScript object used as a string-keyed map (`Record<string, SlimTask>`)
  is embedded as an insertion-ordered association list
  `List (String × SlimTask)`; `Object.entries` iteration order is the list
  order, and property lookup is `find?` on the key.
* Filesystem effects are explicit: `save` produces a list of filesystem
  operations (`FsOp`), and mutators report whether they saved via a `Bool`
  flag in `MutResult`.  Probing the filesystem (`deriveTaskState`) takes an
  explicit `fsExists : String → Bool` capability.
* Subprocess calls (`git …`) are embedded by passing in the `ExecResult`
  each call would return, and recording the issued commands in an event
  trace.
-/

set_option maxHeartbeats 1000000

/-- Embedding of `TaskStatus` from `src/config/types.ts`:
`"pending" | "in-progress" | "complete" | "failed" | "skipped"`. -/
inductive TaskStatus where
  | pending
  | inProgress
  | complete
  | failed
  | skipped
deriving DecidableEq, Repr

/-- Embedding of `Complexity` from `src/config/types.ts`: `"low" | "medium" | "high"`. -/
inductive Complexity where
  | low
  | medium
  | high
deriving DecidableEq, Repr

/-- Embedding of `TaskState` from `src/config/types.ts` (the derived recovery state). -/
inductive TaskState where
  | pending
  | worktreeCreated
  | scaffolding
  | scaffolded
  | executing
  | evaluating
  | complete
  | failed
deriving DecidableEq, Repr

/-- Embedding of `SlimTask` from `src/config/types.ts`. -/
structure SlimTask where
  title : String
  status : TaskStatus
  dependencies : List String
  file : String
  complexity : Complexity
  attempts : Nat
deriving DecidableEq, Repr

/-- Embedding of `TaskGraphData` from `src/config/types.ts`: the persisted document
`{ project, tasks }`.  The `tasks` record is embedded as an
insertion-ordered association list. -/
structure TaskGraphData where
  project : String
  tasks : List (String × SlimTask)
deriving DecidableEq, Repr

/-- Embedding of `ReadyTask` from `src/config/types.ts`. -/
structure ReadyTask where
  id : String
  title : String
  complexity : Complexity
  model : String
  file : String
deriving DecidableEq, Repr

/-- Embedding of `TERMINAL_STATUSES` from `src/core/task-graph.ts`. -/
def TERMINAL_STATUSES : List TaskStatus := [.complete, .failed, .skipped]

/-- Property lookup `this.data.tasks[taskId]` (returns the first binding of
the key; keys of a JavaScript object are unique). -/
def tasksLookup (tasks : List (String × SlimTask)) (taskId : String) : Option SlimTask :=
  (tasks.find? (fun p => p.1 == taskId)).map (fun p => p.2)

/-! ### Sorting

JavaScript's `Array.prototype.sort()` on strings (and
`sort((a, b) => a.id.localeCompare(b.id))` on ready tasks) orders by string
comparison; for the ASCII task ids used here this is plain lexicographic
order on the character codes, embedded by `lexLe`/`strLe`.  The sort itself
is embedded as an insertion sort `sortLe`. -/

/-- Lexicographic comparison on character lists (by code point). -/
def lexLe : List Char → List Char → Bool
  | [], _ => true
  | _ :: _, [] => false
  | a :: as, b :: bs =>
    if a.toNat < b.toNat then true
    else if b.toNat < a.toNat then false
    else lexLe as bs

/-- Lexicographic comparison of strings. -/
def strLe (a b : String) : Bool := lexLe a.data b.data

/-- Comparator used by `readyTasks`: order by `id`. -/
def readyLe (a b : ReadyTask) : Bool := strLe a.id b.id

/-- Ordered insertion for `sortLe`. -/
def insertLe {α : Type} (le : α → α → Bool) (a : α) : List α → List α
  | [] => [a]
  | x :: xs => if le a x then a :: x :: xs else x :: insertLe le a xs

/-- Insertion sort with a boolean comparator (the embedding of JavaScript
`Array.prototype.sort`). -/
def sortLe {α : Type} (le : α → α → Bool) (l : List α) : List α :=
  l.foldr (insertLe le) []

theorem lexLe_total (a b : List Char) : lexLe a b = true ∨ lexLe b a = true := by
  induction a generalizing b with
  | nil => left; rfl
  | cons x xs ih =>
    cases b with
    | nil => right; rfl
    | cons y ys =>
      by_cases hxy : x.toNat < y.toNat
      · left; simp [lexLe, hxy]
      · by_cases hyx : y.toNat < x.toNat
        · right; simp [lexLe, hyx]
        · rcases ih ys with h | h
          · left; simp [lexLe, hxy, hyx, h]
          · right; simp [lexLe, hxy, hyx, h]

theorem strLe_total (a b : String) : strLe a b = true ∨ strLe b a = true :=
  lexLe_total a.data b.data

theorem readyLe_total (a b : ReadyTask) : readyLe a b = true ∨ readyLe b a = true :=
  strLe_total a.id b.id

theorem mem_insertLe {α : Type} (le : α → α → Bool) (a : α) (l : List α) (b : α) :
    b ∈ insertLe le a l ↔ b = a ∨ b ∈ l := by
  induction l with
  | nil => simp [insertLe]
  | cons x xs ih =>
    by_cases h : le a x = true
    · simp [insertLe, h]
    · simp only [insertLe, if_neg h, List.mem_cons, ih]
      tauto

theorem insertLe_perm {α : Type} (le : α → α → Bool) (a : α) (l : List α) :
    List.Perm (insertLe le a l) (a :: l) := by
  induction l with
  | nil => simp [insertLe]
  | cons x xs ih =>
    by_cases h : le a x = true
    · simp [insertLe, h]
    · simp only [insertLe, if_neg h]
      exact (List.Perm.cons x ih).trans (List.Perm.swap a x xs)

theorem sortLe_perm {α : Type} (le : α → α → Bool) (l : List α) :
    List.Perm (sortLe le l) l := by
  induction l with
  | nil => simp [sortLe]
  | cons x xs ih =>
    simp only [sortLe, List.foldr_cons]
    exact (insertLe_perm le x _).trans (List.Perm.cons x ih)

theorem mem_sortLe {α : Type} (le : α → α → Bool) (l : List α) (b : α) :
    b ∈ sortLe le l ↔ b ∈ l :=
  (sortLe_perm le l).mem_iff

theorem lexLe_trans (a b c : List Char) (hab : lexLe a b = true)
    (hbc : lexLe b c = true) : lexLe a c = true := by
  induction a generalizing b c with
  | nil => rfl
  | cons x xs ih =>
    cases b with
    | nil => simp [lexLe] at hab
    | cons y ys =>
      cases c with
      | nil => simp [lexLe] at hbc
      | cons z zs =>
        simp only [lexLe] at hab hbc ⊢
        by_cases hxy : x.toNat < y.toNat
        · by_cases hyz : y.toNat < z.toNat
          · have hxz : x.toNat < z.toNat := Nat.lt_trans hxy hyz
            simp [hxz]
          · by_cases hzy : z.toNat < y.toNat
            · simp [hyz, hzy] at hbc
            · have hxz : x.toNat < z.toNat := by omega
              simp [hxz]
        · by_cases hyx : y.toNat < x.toNat
          · simp [hxy, hyx] at hab
          · by_cases hyz : y.toNat < z.toNat
            · have hxz : x.toNat < z.toNat := by omega
              simp [hxz]
            · by_cases hzy : z.toNat < y.toNat
              · simp [hyz, hzy] at hbc
              · have hxz : ¬ x.toNat < z.toNat := by omega
                have hzx : ¬ z.toNat < x.toNat := by omega
                simp only [hxy, hyx, if_false] at hab
                simp only [hyz, hzy, if_false] at hbc
                simp only [hxz, hzx, if_false]
                exact ih ys zs hab hbc

theorem strLe_trans (a b c : String) (hab : strLe a b = true)
    (hbc : strLe b c = true) : strLe a c = true :=
  lexLe_trans a.data b.data c.data hab hbc

theorem readyLe_trans (a b c : ReadyTask) (hab : readyLe a b = true)
    (hbc : readyLe b c = true) : readyLe a c = true :=
  strLe_trans a.id b.id c.id hab hbc

theorem pairwise_insertLe {α : Type} (le : α → α → Bool)
    (htot : ∀ x y : α, le x y = true ∨ le y x = true)
    (htrans : ∀ x y z : α, le x y = true → le y z = true → le x z = true)
    (a : α) (l : List α)
    (hl : l.Pairwise (fun x y => le x y = true)) :
    (insertLe le a l).Pairwise (fun x y => le x y = true) := by
  induction l with
  | nil => simp [insertLe]
  | cons x xs ih =>
    rw [List.pairwise_cons] at hl
    obtain ⟨hx, hxs⟩ := hl
    by_cases h : le a x = true
    · simp only [insertLe, if_pos h]
      refine List.Pairwise.cons ?_ (List.pairwise_cons.mpr ⟨hx, hxs⟩)
      intro b hb
      rcases List.mem_cons.mp hb with rfl | hb
      · exact h
      · exact htrans a x b h (hx b hb)
    · simp only [insertLe, if_neg h]
      refine List.Pairwise.cons ?_ (ih hxs)
      intro b hb
      rcases (mem_insertLe le a xs b).mp hb with rfl | hb
      · rcases htot x b with hxb | hbx
        · exact hxb
        · exact absurd hbx h
      · exact hx b hb

theorem sortLe_pairwise {α : Type} (le : α → α → Bool)
    (htot : ∀ x y : α, le x y = true ∨ le y x = true)
    (htrans : ∀ x y z : α, le x y = true → le y z = true → le x z = true)
    (l : List α) :
    (sortLe le l).Pairwise (fun x y => le x y = true) := by
  induction l with
  | nil => simp [sortLe]
  | cons x xs ih =>
    simp only [sortLe, List.foldr_cons]
    exact pairwise_insertLe le htot htrans x _ ih

/-! ### TaskGraph operations (`src/core/task-graph.ts`) -/

/-- Execution-tier model for `low` complexity tasks (the lightweight tier). -/
def lightweightTierModel : String := "claude-sonnet-4-6"

/-- Execution-tier model for `medium`/`high` complexity tasks (the heavy
tier). -/
def heavyTierModel : String := "claude-opus-4-6"

/-- The complexity → execution-tier policy table as the specification states
it: `low` maps to the lightweight tier, `medium` and `high` to the heavy
tier. -/
def complexityTier : Complexity → String
  | .low => lightweightTierModel
  | .medium => heavyTierModel
  | .high => heavyTierModel

/-- The `ReadyTask` entry built by `readyTasks` for one qualifying task:
`{ id, title, complexity, model, file }` with
`model = task.complexity === "low" ? lightweight : heavy`. -/
def mkReadyTask (id : String) (t : SlimTask) : ReadyTask :=
  { id := id
    title := t.title
    complexity := t.complexity
    model := if t.complexity == .low then lightweightTierModel else heavyTierModel
    file := t.file }

/-- The set of terminal task ids computed at the top of `readyTasks`:
ids of tasks whose status is in `TERMINAL_STATUSES`. -/
def terminalIds (g : TaskGraphData) : List String :=
  (g.tasks.filter (fun p => TERMINAL_STATUSES.contains p.2.status)).map (fun p => p.1)

/-- Embedding of `TaskGraph.readyTasks()`: collect every entry whose status is `pending`
and whose dependencies are all in the terminal-id set, build a `ReadyTask`
for each, and sort the result by id. -/
def readyTasks (g : TaskGraphData) : List ReadyTask :=
  let tids := terminalIds g
  sortLe readyLe
    ((g.tasks.filter
        (fun p => p.2.status == .pending && p.2.dependencies.all (fun d => tids.contains d))).map
      (fun p => mkReadyTask p.1 p.2))

/-- Result of one mutating `TaskGraph` method: the document afterwards,
whether `save()` was invoked, and the message of the error thrown (if
any).  When `error` is set the method threw before saving, so `data` is the
unchanged document and `saved` is `false`. -/
structure MutResult where
  data : TaskGraphData
  saved : Bool
  error : Option String
deriving DecidableEq, Repr

/-- Replace the task bound to `taskId` (if any) by applying `f`, keeping
every other binding; the embedding of mutating `this.data.tasks[taskId]` in
place. -/
def updateTask (tasks : List (String × SlimTask)) (taskId : String)
    (f : SlimTask → SlimTask) : List (String × SlimTask) :=
  tasks.map (fun p => if p.1 == taskId then (p.1, f p.2) else p)

/-- Embedding of `TaskGraph.setStatus(taskId, status)`: if the task exists, set its
status and save; otherwise do nothing (no error, no save). -/
def setStatus (g : TaskGraphData) (taskId : String) (status : TaskStatus) : MutResult :=
  match tasksLookup g.tasks taskId with
  | none => { data := g, saved := false, error := none }
  | some _ =>
    { data := { g with tasks := updateTask g.tasks taskId (fun t => { t with status := status }) }
      saved := true
      error := none }

/-- Embedding of `TaskGraph.resetInterruptedTasks()`: one pass over the tasks moving
every `in-progress` task back to `pending` and counting the changes (the
method then saves only when the count is positive). -/
def resetInterruptedTasks (g : TaskGraphData) : TaskGraphData × Nat :=
  let r := g.tasks.foldl
    (fun (acc : List (String × SlimTask) × Nat) p =>
      if p.2.status == .inProgress then
        (acc.1 ++ [(p.1, { p.2 with status := .pending })], acc.2 + 1)
      else
        (acc.1 ++ [p], acc.2))
    ([], 0)
  ({ g with tasks := r.1 }, r.2)

/-- The partial update object `Partial<SlimTask>` accepted by
`amendTask`: each field is present (`some`) or absent (`none`). -/
structure TaskUpdates where
  title : Option String
  status : Option TaskStatus
  dependencies : Option (List String)
  file : Option String
  complexity : Option Complexity
  attempts : Option Nat
deriving DecidableEq, Repr

/-- Embedding of `Object.assign(task, updates)`: fields present in `updates` overwrite
the task's fields, absent fields are left intact. -/
def applyUpdates (t : SlimTask) (u : TaskUpdates) : SlimTask :=
  { title := u.title.getD t.title
    status := u.status.getD t.status
    dependencies := u.dependencies.getD t.dependencies
    file := u.file.getD t.file
    complexity := u.complexity.getD t.complexity
    attempts := u.attempts.getD t.attempts }

/-- Embedding of `TaskGraph.amendTask(taskId, updates)`: throw `Task not found: <id>`
when the id is absent; otherwise merge the provided fields into the task
and save. -/
def amendTask (g : TaskGraphData) (taskId : String) (u : TaskUpdates) : MutResult :=
  match tasksLookup g.tasks taskId with
  | none => { data := g, saved := false, error := some ("Task not found: " ++ taskId) }
  | some _ =>
    { data := { g with tasks := updateTask g.tasks taskId (fun t => applyUpdates t u) }
      saved := true
      error := none }

/-- Embedding of `TaskGraph.incrementAttempts(taskId)`: throw `Task not found: <id>`
when the id is absent; otherwise `task.attempts += 1` and save. -/
def incrementAttempts (g : TaskGraphData) (taskId : String) : MutResult :=
  match tasksLookup g.tasks taskId with
  | none => { data := g, saved := false, error := some ("Task not found: " ++ taskId) }
  | some _ =>
    { data := { g with tasks := updateTask g.tasks taskId (fun t => { t with attempts := t.attempts + 1 }) }
      saved := true
      error := none }

/-! ### `nextTaskId` and its JavaScript `parseInt` semantics -/

/-- JavaScript whitespace accepted at the front of `Number.parseInt`'s
argument (the common cases: space, tab, newline, carriage return, vertical
tab, form feed, no-break space). -/
def isJsSpace (c : Char) : Bool :=
  c == ' ' || c == '\t' || c == '\n' || c == '\r' || c.toNat == 11 || c.toNat == 12 ||
    c.toNat == 160

/-- Decimal value of a digit string. -/
def digitsToNat (ds : List Char) : Nat :=
  ds.foldl (fun acc c => acc * 10 + (c.toNat - '0'.toNat)) 0

/-- Embedding of `Number.parseInt(s, 10)`: skip leading whitespace, read an optional
sign, then the longest run of decimal digits; `none` models `NaN` (no
digits found).  Trailing non-digit characters are ignored. -/
def jsParseInt (s : String) : Option Int :=
  let cs := s.data.dropWhile isJsSpace
  match cs with
  | '-' :: rest =>
    let ds := rest.takeWhile Char.isDigit
    if ds.isEmpty then none else some (-(digitsToNat ds : Int))
  | '+' :: rest =>
    let ds := rest.takeWhile Char.isDigit
    if ds.isEmpty then none else some (digitsToNat ds : Int)
  | rest =>
    let ds := rest.takeWhile Char.isDigit
    if ds.isEmpty then none else some (digitsToNat ds : Int)

/-- Embedding of `id.replace(/^T/, "")`: drop one leading `T` if present. -/
def stripLeadingT (s : String) : String :=
  match s.data with
  | 'T' :: rest => String.mk rest
  | _ => s

/-- Embedding of `String(n).padStart(3, "0")`. -/
def padStart3 (s : String) : String :=
  if s.length ≥ 3 then s else String.mk (List.replicate (3 - s.length) '0') ++ s

/-- Embedding of `TaskGraph.nextTaskId()`: for every id, strip a leading `T` and apply
`parseInt`; track the maximum value seen (`NaN` comparisons are false, so
unparseable ids leave the maximum alone); return `T` followed by the
successor of the maximum, zero-padded to three digits. -/
def nextTaskId (g : TaskGraphData) : String :=
  let maxV : Int := g.tasks.foldl
    (fun mx p =>
      match jsParseInt (stripLeadingT p.1) with
      | none => mx
      | some n => if n > mx then n else mx)
    0
  "T" ++ padStart3 (toString (maxV + 1))

/-! ### `moveDeps` and dependency rewiring -/

/-- Deduplication pass `[...new Set(arr)]`: keeps the first occurrence of
each element, in order.  `seen` accumulates the elements already kept. -/
def dedupAux (seen : List String) : List String → List String
  | [] => []
  | x :: xs =>
    if seen.contains x then dedupAux seen xs
    else x :: dedupAux (seen ++ [x]) xs

/-- Embedding of `[...new Set(l)]`: first-occurrence order deduplication. -/
def dedupKeepFirst (l : List String) : List String := dedupAux [] l

/-- Embedding of `arr.splice(i, 1, ...repl)`: replace the single element at index `i`
with the sequence `repl`. -/
def spliceReplace (deps : List String) (i : Nat) (repl : List String) : List String :=
  deps.take i ++ repl ++ deps.drop (i + 1)

/-- The per-task body of `moveDeps`: find the first index of `fromTaskId`
in the dependency list (`indexOf`); if absent leave the task alone,
otherwise splice `toTaskIds` in at that index and deduplicate. -/
def moveDepsTask (fromTaskId : String) (toTaskIds : List String) (t : SlimTask) : SlimTask :=
  match t.dependencies.findIdx? (fun d => d == fromTaskId) with
  | none => t
  | some i =>
    { t with dependencies := dedupKeepFirst (spliceReplace t.dependencies i toTaskIds) }

/-- Embedding of `TaskGraph.moveDeps(fromTaskId, toTaskIds)`: apply the rewiring to
every task of the document (the method then saves unconditionally). -/
def moveDeps (g : TaskGraphData) (fromTaskId : String) (toTaskIds : List String) : TaskGraphData :=
  { g with tasks := g.tasks.map (fun p => (p.1, moveDepsTask fromTaskId toTaskIds p.2)) }

/-- Embedding of `TaskGraph.addDep(taskId, depId)` (present-task branch): push `depId`
unless already present.  Absent ids throw, as in `amendTask`. -/
def addDep (g : TaskGraphData) (taskId : String) (depId : String) : MutResult :=
  match tasksLookup g.tasks taskId with
  | none => { data := g, saved := false, error := some ("Task not found: " ++ taskId) }
  | some _ =>
    { data :=
        { g with
          tasks := updateTask g.tasks taskId
            (fun t =>
              if t.dependencies.contains depId then t
              else { t with dependencies := t.dependencies ++ [depId] }) }
      saved := true
      error := none }

/-! ### `dependents` and the transitive-downstream traversal -/

/-- Embedding of `TaskGraph.dependents(taskId)`: ids of the entries whose dependency
list contains `taskId`, sorted. -/
def dependents (g : TaskGraphData) (taskId : String) : List String :=
  sortLe strLe ((g.tasks.filter (fun p => p.2.dependencies.contains taskId)).map (fun p => p.1))

/-- One pass of the inner loop of `transitiveDownstream`: scan the entries
in order and collect each id whose task depends on `current` (JavaScript
`includes`, i.e. membership) and which is not yet visited, updating the
visited set as ids are collected. -/
def scanDependents (tasks : List (String × SlimTask)) (current : String)
    (visited : List String) : List String :=
  match tasks with
  | [] => []
  | p :: rest =>
    if current ∈ p.2.dependencies ∧ p.1 ∉ visited then
      p.1 :: scanDependents rest current (visited ++ [p.1])
    else
      scanDependents rest current visited

theorem contains_iff_mem (l : List String) (x : String) : l.contains x = true ↔ x ∈ l := by
  induction l with
  | nil => simp
  | cons a as ih =>
    simp only [List.contains_cons, Bool.or_eq_true, beq_iff_eq, List.mem_cons, ih]

theorem scanDependents_sound (tasks : List (String × SlimTask)) (current : String)
    (visited : List String) (x : String) (hx : x ∈ scanDependents tasks current visited) :
    x ∉ visited ∧ ∃ t, (x, t) ∈ tasks ∧ current ∈ t.dependencies := by
  induction tasks generalizing visited with
  | nil => simp [scanDependents] at hx
  | cons p rest ih =>
    simp only [scanDependents] at hx
    by_cases hg : current ∈ p.2.dependencies ∧ p.1 ∉ visited
    · rw [if_pos hg] at hx
      rcases List.mem_cons.mp hx with rfl | hx
      · exact ⟨hg.2, ⟨p.2, List.mem_cons_self _ _, hg.1⟩⟩
      · obtain ⟨hnv2, t, hmem, hdep2⟩ := ih _ hx
        exact ⟨fun hv => hnv2 (List.mem_append_left _ hv),
          ⟨t, List.mem_cons_of_mem _ hmem, hdep2⟩⟩
    · rw [if_neg hg] at hx
      obtain ⟨hnv2, t, hmem, hdep2⟩ := ih _ hx
      exact ⟨hnv2, ⟨t, List.mem_cons_of_mem _ hmem, hdep2⟩⟩

theorem scanDependents_nodup (tasks : List (String × SlimTask)) (current : String)
    (visited : List String) : (scanDependents tasks current visited).Nodup := by
  induction tasks generalizing visited with
  | nil => simp [scanDependents]
  | cons p rest ih =>
    simp only [scanDependents]
    by_cases hg : current ∈ p.2.dependencies ∧ p.1 ∉ visited
    · rw [if_pos hg]
      refine List.Nodup.cons ?_ (ih _)
      intro hmem
      have := (scanDependents_sound _ _ _ _ hmem).1
      exact this (List.mem_append_right _ (List.mem_singleton.mpr rfl))
    · rw [if_neg hg]
      exact ih _

theorem scanDependents_complete (tasks : List (String × SlimTask)) (current : String)
    (visited : List String) (x : String) (t : SlimTask) (hmem : (x, t) ∈ tasks)
    (hdep : current ∈ t.dependencies) :
    x ∈ visited ∨ x ∈ scanDependents tasks current visited := by
  induction tasks generalizing visited with
  | nil => simp at hmem
  | cons p rest ih =>
    simp only [scanDependents]
    rcases List.mem_cons.mp hmem with heq | hmem2
    · have hx1 : x = p.1 := by rw [← heq]
      have ht2 : t = p.2 := by rw [← heq]
      by_cases hv : p.1 ∈ visited
      · left
        rw [hx1]
        exact hv
      · have hg : current ∈ p.2.dependencies ∧ p.1 ∉ visited := by
          refine ⟨?_, hv⟩
          rw [← ht2]
          exact hdep
        rw [if_pos hg]
        right
        rw [hx1]
        exact List.mem_cons_self _ _
    · by_cases hg : current ∈ p.2.dependencies ∧ p.1 ∉ visited
      · rw [if_pos hg]
        rcases ih (visited ++ [p.1]) hmem2 with hv | hs
        · rcases List.mem_append.mp hv with hv1 | hv2
          · exact Or.inl hv1
          · right
            rw [List.mem_singleton.mp hv2]
            exact List.mem_cons_self _ _
        · exact Or.inr (List.mem_cons_of_mem _ hs)
      · rw [if_neg hg]
        exact ih visited hmem2

/-- Number of task ids not yet visited; used as the termination measure of
the breadth-first traversal. -/
def unvisitedCount (keys visited : List String) : Nat :=
  (keys.filter (fun k => decide (k ∉ visited))).length

theorem filter_imp_length_le {α : Type} (p q : α → Bool)
    (h : ∀ a, p a = true → q a = true) (l : List α) :
    (l.filter p).length ≤ (l.filter q).length := by
  induction l with
  | nil => simp
  | cons a as ih =>
    by_cases hp : p a = true
    · simp [List.filter_cons, hp, h a hp]
      omega
    · by_cases hq : q a = true
      · simp [List.filter_cons, hp, hq]
        omega
      · simp [List.filter_cons, hp, hq]
        exact ih

theorem unvisitedCount_mono (keys vis ext : List String) :
    unvisitedCount keys (vis ++ ext) ≤ unvisitedCount keys vis := by
  apply filter_imp_length_le
  intro a ha
  simp only [decide_eq_true_eq] at ha ⊢
  intro hmem
  exact ha (List.mem_append_left _ hmem)

theorem filter_and_ne_lt (keys vis : List String) (n : String)
    (hk : n ∈ keys) (hv : n ∉ vis) :
    (keys.filter (fun k => decide (k ∉ vis) && decide (k ≠ n))).length <
      (keys.filter (fun k => decide (k ∉ vis))).length := by
  induction keys with
  | nil => simp at hk
  | cons a ks ih =>
    by_cases ha : a = n
    · subst ha
      have h1 : (decide (a ∉ vis) && decide (a ≠ a)) = false := by simp
      have h2 : decide (a ∉ vis) = true := by simp [hv]
      simp only [List.filter_cons]
      rw [h1, h2]
      simp only [Bool.false_eq_true, if_false, if_true, List.length_cons]
      have hle := filter_imp_length_le (fun k => decide (k ∉ vis) && decide (k ≠ a))
        (fun k => decide (k ∉ vis))
        (fun b hb => (Bool.and_eq_true_iff.mp hb).1) ks
      omega
    · have hk2 : n ∈ ks := by
        rcases List.mem_cons.mp hk with h | h
        · exact absurd h.symm ha
        · exact h
      have hcomb : (decide (a ∉ vis) && decide (a ≠ n)) = decide (a ∉ vis) := by
        have : decide (a ≠ n) = true := by simp [ha]
        rw [this, Bool.and_true]
      simp only [List.filter_cons, hcomb]
      by_cases hq : decide (a ∉ vis) = true
      · simp only [hq, if_true, List.length_cons]
        have := ih hk2
        omega
      · simp only [Bool.not_eq_true] at hq
        simp only [hq, Bool.false_eq_true, if_false]
        exact ih hk2

theorem unvisitedCount_snoc_lt (keys vis : List String) (n : String)
    (hk : n ∈ keys) (hv : n ∉ vis) :
    unvisitedCount keys (vis ++ [n]) < unvisitedCount keys vis := by
  have hcong : keys.filter (fun k => decide (k ∉ vis ++ [n]))
      = keys.filter (fun k => decide (k ∉ vis) && decide (k ≠ n)) := by
    apply List.filter_congr
    intro a _
    by_cases h1 : a ∈ vis <;> by_cases h2 : a = n <;>
      simp [h1, h2, List.mem_append]
  unfold unvisitedCount
  rw [hcong]
  exact filter_and_ne_lt keys vis n hk hv

theorem unvisitedCount_append (keys vis new : List String) (hnd : new.Nodup)
    (hmem : ∀ x ∈ new, x ∈ keys ∧ x ∉ vis) :
    unvisitedCount keys (vis ++ new) + new.length ≤ unvisitedCount keys vis := by
  induction new generalizing vis with
  | nil => simp
  | cons n ns ih =>
    rw [List.nodup_cons] at hnd
    obtain ⟨hn, hns⟩ := hnd
    have step := unvisitedCount_snoc_lt keys vis n (hmem n (List.mem_cons_self _ _)).1
      (hmem n (List.mem_cons_self _ _)).2
    have ihs := ih (vis ++ [n]) hns ?_
    · have hassoc : vis ++ [n] ++ ns = vis ++ n :: ns := by
        rw [List.append_assoc]
        rfl
      rw [hassoc] at ihs
      simp only [List.length_cons]
      omega
    · intro x hx
      refine ⟨(hmem x (List.mem_cons_of_mem _ hx)).1, ?_⟩
      intro hmem2
      rcases List.mem_append.mp hmem2 with h | h
      · exact (hmem x (List.mem_cons_of_mem _ hx)).2 h
      · rw [List.mem_singleton.mp h] at hx
        exact hn hx

/-- Embedding of `TaskGraph.transitiveDownstream`'s breadth-first loop: `queue` is the
worklist (elements are processed left to right, the loop index `i` never
revisits an element), `visited` the ids collected so far.  Processing
`current` appends every not-yet-visited dependent of `current` to both the
queue and the visited list. -/
def downstreamAux (g : TaskGraphData) : List String → List String → List String
  | [], visited => visited
  | current :: rest, visited =>
    downstreamAux g (rest ++ scanDependents g.tasks current visited)
      (visited ++ scanDependents g.tasks current visited)
termination_by queue visited => 2 * unvisitedCount (g.tasks.map (fun p => p.1)) visited + queue.length
decreasing_by
  have hnd := scanDependents_nodup g.tasks current visited
  have hmem : ∀ x ∈ scanDependents g.tasks current visited,
      x ∈ g.tasks.map (fun p => p.1) ∧ x ∉ visited := by
    intro x hx
    obtain ⟨hnv, t, hmemt, _⟩ := scanDependents_sound _ _ _ _ hx
    exact ⟨List.mem_map.mpr ⟨(x, t), hmemt, rfl⟩, hnv⟩
  have h2 := unvisitedCount_append (g.tasks.map (fun p => p.1)) visited _ hnd hmem
  simp only [List.length_append, List.length_cons]
  omega

/-- Embedding of `TaskGraph.transitiveDownstream(taskId)`: run the breadth-first
traversal starting from a queue holding just `taskId` and an empty visited
set, then sort the visited ids. -/
def transitiveDownstream (g : TaskGraphData) (taskId : String) : List String :=
  sortLe strLe (downstreamAux g [taskId] [])

/-- Edge relation of the downstream traversal: task `z` depends directly on
task `c` (the entry `(z, t)` is in the document and `c` appears in the
dependency list of `t`). -/
def dependsOn (g : TaskGraphData) (z c : String) : Prop :=
  ∃ t, (z, t) ∈ g.tasks ∧ c ∈ t.dependencies

/-- Transitive "depends on me" reachability from `root`, with at least one
edge: the least relation containing every direct dependent of `root` and
closed under taking dependents.  This is the least fixed point of
repeatedly unioning the dependent sets starting from `root`. -/
inductive Downstream (g : TaskGraphData) (root : String) : String → Prop where
  | head : ∀ z, dependsOn g z root → Downstream g root z
  | tail : ∀ c z, Downstream g root c → dependsOn g z c → Downstream g root z

theorem downstreamAux_mono (g : TaskGraphData) (queue visited : List String) :
    ∀ x ∈ visited, x ∈ downstreamAux g queue visited := by
  induction queue, visited using downstreamAux.induct g with
  | case1 visited => intro x hx; simpa [downstreamAux] using hx
  | case2 current rest visited ih =>
    intro x hx
    rw [downstreamAux]
    exact ih x (List.mem_append_left _ hx)

theorem downstreamAux_queue_closed (g : TaskGraphData) (queue visited : List String) :
    ∀ c ∈ queue, ∀ z, dependsOn g z c → z ∈ downstreamAux g queue visited := by
  induction queue, visited using downstreamAux.induct g with
  | case1 visited => intro c hc; simp at hc
  | case2 current rest visited ih =>
    intro c hc z hz
    rw [downstreamAux]
    rcases List.mem_cons.mp hc with rfl | hcr
    · obtain ⟨t, hmemt, hdept⟩ := hz
      rcases scanDependents_complete g.tasks c visited z t hmemt hdept with hv | hs
      · exact downstreamAux_mono g _ _ z (List.mem_append_left _ hv)
      · exact downstreamAux_mono g _ _ z (List.mem_append_right _ hs)
    · exact ih c (List.mem_append_left _ hcr) z hz

theorem downstreamAux_result_closed (g : TaskGraphData) (queue visited : List String)
    (hv : ∀ v ∈ visited, v ∈ queue ∨ ∀ z, dependsOn g z v → z ∈ downstreamAux g queue visited) :
    ∀ y ∈ downstreamAux g queue visited, ∀ z, dependsOn g z y →
      z ∈ downstreamAux g queue visited := by
  induction queue, visited using downstreamAux.induct g with
  | case1 visited =>
    intro y hy z hz
    rw [downstreamAux] at hy hv ⊢
    rcases hv y hy with hq | hcl
    · simp at hq
    · exact hcl z hz
  | case2 current rest visited ih =>
    intro y hy z hz
    rw [downstreamAux] at hy ⊢
    refine ih ?_ y hy z hz
    intro v hvmem
    rcases List.mem_append.mp hvmem with hvv | hvn
    · rcases hv v hvv with hq | hcl
      · rcases List.mem_cons.mp hq with rfl | hqr
        · right
          intro w hw
          obtain ⟨t, hmemt, hdept⟩ := hw
          rcases scanDependents_complete g.tasks v visited w t hmemt hdept with h1 | h2
          · exact downstreamAux_mono g _ _ w (List.mem_append_left _ h1)
          · exact downstreamAux_mono g _ _ w (List.mem_append_right _ h2)
        · exact Or.inl (List.mem_append_left _ hqr)
      · right
        intro w hw
        have := hcl w hw
        rw [downstreamAux] at this
        exact this
    · exact Or.inl (List.mem_append_right _ hvn)

theorem downstreamAux_sound (g : TaskGraphData) (root : String) (queue visited : List String)
    (hq : ∀ c ∈ queue, c = root ∨ Downstream g root c)
    (hv : ∀ v ∈ visited, Downstream g root v) :
    ∀ y ∈ downstreamAux g queue visited, Downstream g root y := by
  induction queue, visited using downstreamAux.induct g with
  | case1 visited =>
    intro y hy
    rw [downstreamAux] at hy
    exact hv y hy
  | case2 current rest visited ih =>
    intro y hy
    rw [downstreamAux] at hy
    refine ih ?_ ?_ y hy
    · intro c hc
      rcases List.mem_append.mp hc with h1 | h2
      · exact hq c (List.mem_cons_of_mem _ h1)
      · right
        obtain ⟨hnv, t, hmemt, hdept⟩ := scanDependents_sound g.tasks current visited c h2
        rcases hq current (List.mem_cons_self _ _) with rfl | hcur
        · exact Downstream.head c ⟨t, hmemt, hdept⟩
        · exact Downstream.tail current c hcur ⟨t, hmemt, hdept⟩
    · intro v hvmem
      rcases List.mem_append.mp hvmem with h1 | h2
      · exact hv v h1
      · obtain ⟨hnv, t, hmemt, hdept⟩ := scanDependents_sound g.tasks current visited v h2
        rcases hq current (List.mem_cons_self _ _) with rfl | hcur
        · exact Downstream.head v ⟨t, hmemt, hdept⟩
        · exact Downstream.tail current v hcur ⟨t, hmemt, hdept⟩

theorem downstreamAux_nodup (g : TaskGraphData) (queue visited : List String)
    (hnd : visited.Nodup) : (downstreamAux g queue visited).Nodup := by
  induction queue, visited using downstreamAux.induct g with
  | case1 visited =>
    rw [downstreamAux]
    exact hnd
  | case2 current rest visited ih =>
    rw [downstreamAux]
    refine ih ?_
    refine List.Nodup.append hnd (scanDependents_nodup _ _ _) ?_
    intro a ha hb
    exact (scanDependents_sound _ _ _ _ hb).1 ha

theorem downstream_complete (g : TaskGraphData) (root y : String)
    (hy : Downstream g root y) : y ∈ downstreamAux g [root] [] := by
  induction hy with
  | head z hz =>
    exact downstreamAux_queue_closed g [root] [] root (List.mem_singleton.mpr rfl) z hz
  | tail c z _ hz ih =>
    refine downstreamAux_result_closed g [root] [] ?_ c ih z hz
    intro v hv
    simp at hv

theorem mem_transitiveDownstream (g : TaskGraphData) (root x : String) :
    x ∈ transitiveDownstream g root ↔ Downstream g root x := by
  rw [transitiveDownstream, mem_sortLe]
  constructor
  · intro hx
    refine downstreamAux_sound g root [root] [] ?_ ?_ x hx
    · intro c hc
      exact Or.inl (List.mem_singleton.mp hc)
    · intro v hv
      simp at hv
  · exact downstream_complete g root x

theorem mem_dependents (g : TaskGraphData) (root x : String) :
    x ∈ dependents g root ↔ dependsOn g x root := by
  rw [dependents, mem_sortLe]
  constructor
  · intro hx
    obtain ⟨p, hp, rfl⟩ := List.mem_map.mp hx
    obtain ⟨hmem, hcond⟩ := List.mem_filter.mp hp
    exact ⟨p.2, hmem, (contains_iff_mem _ _).mp hcond⟩
  · intro ⟨t, hmem, hdep⟩
    refine List.mem_map.mpr ⟨(x, t), List.mem_filter.mpr ⟨hmem, ?_⟩, rfl⟩
    exact (contains_iff_mem _ _).mpr hdep

/-! ### Recovery-state deriver (`src/commands/task-state.ts`) -/

/-- Embedding of `SCAFFOLD_MARKER` from `src/config/defaults.ts` (value documented in
`src/config/types.ts`: the `scaffolded` state means `.df-scaffolds-ready`
exists).  The exact value is irrelevant to the claims proved here. -/
def SCAFFOLD_MARKER : String := ".df-scaffolds-ready"

/-- Embedding of `join(a, b)` from `node:path` for the simple relative components used
here. -/
def pathJoin (a b : String) : String := a ++ "/" ++ b

/-- Embedding of `deriveTaskState(taskId, tg, projectRoot, worktreeBase, outputDir)`
from `src/commands/task-state.ts`.  The filesystem probe `fileExists` is
passed in as the capability `fsExists`.  `projectRoot` is accepted (as in
the source) but unused. -/
def deriveTaskState (taskId : String) (g : TaskGraphData) (projectRoot : String)
    (worktreeBase : String) (outputDir : String) (fsExists : String → Bool) :
    Except String TaskState :=
  let _ := projectRoot
  match tasksLookup g.tasks taskId with
  | none => Except.error ("Task " ++ taskId ++ " not found")
  | some task =>
    if task.status = .complete then Except.ok .complete
    else if task.status = .failed then Except.ok .failed
    else if task.status = .skipped then Except.ok .complete
    else
      let worktreeDir := pathJoin worktreeBase taskId
      let hasWorktree := fsExists worktreeDir
      let hasScaffold := hasWorktree && fsExists (pathJoin worktreeDir SCAFFOLD_MARKER)
      let resultFile := pathJoin outputDir (taskId ++ ".md")
      let hasResult := fsExists resultFile
      if hasResult then Except.ok .evaluating
      else if hasScaffold then Except.ok .scaffolded
      else if hasWorktree && task.status = .inProgress then Except.ok .worktreeCreated
      else Except.ok .pending

/-- The recovery-state decision procedure as the specification claim
states it, written directly from the claim's sentence: `complete` when the
persisted status is `complete` or `skipped`; `failed` when `failed`;
otherwise `evaluating` if the result artifact `<outputDir>/<id>.md`
exists, else `scaffolded` if the scaffold marker exists inside the
worktree directory `<worktreeBase>/<id>`, else `worktree-created` if that
worktree directory exists and the persisted status is `in-progress`, else
`pending`; and a `NotFound` error when the task id is absent. -/
def deriveTaskStateClaim (taskId : String) (g : TaskGraphData)
    (worktreeBase : String) (outputDir : String) (fsExists : String → Bool) :
    Except String TaskState :=
  match tasksLookup g.tasks taskId with
  | none => Except.error ("Task " ++ taskId ++ " not found")
  | some task =>
    if task.status = .complete ∨ task.status = .skipped then Except.ok .complete
    else if task.status = .failed then Except.ok .failed
    else if fsExists (pathJoin outputDir (taskId ++ ".md")) then Except.ok .evaluating
    else if fsExists (pathJoin worktreeBase taskId)
        ∧ fsExists (pathJoin (pathJoin worktreeBase taskId) SCAFFOLD_MARKER) then
      Except.ok .scaffolded
    else if fsExists (pathJoin worktreeBase taskId) ∧ task.status = .inProgress then
      Except.ok .worktreeCreated
    else Except.ok .pending

/-! ### Worktree merge protocol (`src/core/worktree.ts`) -/

/-- Embedding of `ExecResult` from `src/core/exec.ts`. -/
structure ExecResult where
  ok : Bool
  stdout : String
  stderr : String
  output : String
deriving DecidableEq, Repr

/-- Embedding of `WorktreeConfig` from `src/config/types.ts`.  (`branchPfx` embeds the
`branchPrefix` field.) -/
structure WorktreeConfig where
  projectRoot : String
  worktreeBase : String
  branchPfx : String
  integrationBranch : String
deriving DecidableEq, Repr

/-- The results the five `git` subprocess invocations of `mergeTask` would
return, in program order: `branch --show-current`, `checkout`,
`merge --squash`, `commit`, `push`. -/
structure GitBehavior where
  showCurrentBranch : ExecResult
  checkoutIntegration : ExecResult
  mergeSquash : ExecResult
  commit : ExecResult
  push : ExecResult
deriving DecidableEq, Repr

/-- Observable event of a `mergeTask` run: a subprocess invocation or a
log line (`logger.err` / `logger.warn` / `logger.ok`). -/
inductive MergeEvent where
  | run (cmd : List String)
  | logErr (msg : String)
  | logWarn (msg : String)
  | logOk (msg : String)
deriving DecidableEq, Repr

/-- Build the `["git", "-C", projectRoot, ...]` argument vector. -/
def gitCmd (cfg : WorktreeConfig) (args : List String) : List String :=
  "git" :: "-C" :: cfg.projectRoot :: args

/-- Embedding of `mergeTask(taskId, config, taskGraph, logger)` from
`src/core/worktree.ts`: returns the boolean result together with the trace
of subprocess invocations and log lines.  The function is total (the
source never throws): a merge conflict aborts the merge and returns
`false`; a commit failure returns `false`; a push failure is only
warned about and the function still returns `true`. -/
def mergeTask (taskId : String) (cfg : WorktreeConfig) (g : TaskGraphData)
    (git : GitBehavior) : Bool × List MergeEvent :=
  let branch := cfg.branchPfx ++ taskId
  let title := ((tasksLookup g.tasks taskId).map (fun t => t.title)).getD taskId
  let ev0 := [MergeEvent.run (gitCmd cfg ["branch", "--show-current"])]
  let ev1 := if git.showCurrentBranch.output.trim ≠ cfg.integrationBranch then
      ev0 ++ [MergeEvent.run (gitCmd cfg ["checkout", cfg.integrationBranch])]
    else ev0
  let ev2 := ev1 ++ [MergeEvent.run (gitCmd cfg ["merge", "--squash", branch])]
  if !git.mergeSquash.ok then
    (false, ev2 ++ [MergeEvent.logErr ("Merge conflict on " ++ taskId),
      MergeEvent.run (gitCmd cfg ["merge", "--abort"])])
  else
    let ev3 := ev2 ++
      [MergeEvent.run (gitCmd cfg ["commit", "-m", "feat(" ++ taskId ++ "): " ++ title, "--no-edit"])]
    if !git.commit.ok then
      (false, ev3 ++ [MergeEvent.logWarn (taskId ++ ": no changes to merge")])
    else
      let ev4 := ev3 ++ [MergeEvent.run (gitCmd cfg ["push", "origin", cfg.integrationBranch])]
      if !git.push.ok then
        (true, ev4 ++ [MergeEvent.logWarn (taskId ++ ": push failed (will retry on next merge)"),
          MergeEvent.logOk ("Merged " ++ taskId ++ " into " ++ cfg.integrationBranch)])
      else
        (true, ev4 ++ [MergeEvent.logOk ("Merged " ++ taskId ++ " into " ++ cfg.integrationBranch)])

/-! ### Persistence (`TaskGraph.load` / `TaskGraph.save`)

`save()` serializes with `JSON.stringify(this.data, null, 2)` (two-space
pretty printing) plus a trailing newline, writes to
`filePath + ".tmp." + Date.now()` and renames over `filePath`; `load`
reads the file and parses it with `JSON.parse`.  The embedding gives an
executable serializer `emitDoc` faithful to `JSON.stringify(·, null, 2)`
on `TaskGraphData` (including its string-escaping rules) and an executable
recursive-descent parser `parseDocChars` for the documented document
format (§6 of the specification: fixed field order, arbitrary
whitespace). -/

/-- Decimal digit character (`0`–`9`); `'0'` for out-of-range input. -/
def digitChar : Nat → Char
  | 0 => '0' | 1 => '1' | 2 => '2' | 3 => '3' | 4 => '4'
  | 5 => '5' | 6 => '6' | 7 => '7' | 8 => '8' | 9 => '9'
  | _ => '0'

/-- Lowercase hexadecimal digit character; `'0'` for out-of-range input. -/
def hexDig : Nat → Char
  | 0 => '0' | 1 => '1' | 2 => '2' | 3 => '3' | 4 => '4'
  | 5 => '5' | 6 => '6' | 7 => '7' | 8 => '8' | 9 => '9'
  | 10 => 'a' | 11 => 'b' | 12 => 'c' | 13 => 'd' | 14 => 'e' | 15 => 'f'
  | _ => '0'

/-- Value of a hexadecimal digit character. -/
def hexVal (c : Char) : Option Nat :=
  if 48 ≤ c.toNat ∧ c.toNat ≤ 57 then some (c.toNat - 48)
  else if 97 ≤ c.toNat ∧ c.toNat ≤ 102 then some (c.toNat - 97 + 10)
  else if 65 ≤ c.toNat ∧ c.toNat ≤ 70 then some (c.toNat - 65 + 10)
  else none

/-- Decimal digits of `n`, most significant first (the digits
`JSON.stringify` prints for a non-negative integer). -/
def natDigits (n : Nat) : List Char :=
  if h : n < 10 then [digitChar n]
  else natDigits (n / 10) ++ [digitChar (n % 10)]
termination_by n
decreasing_by exact Nat.div_lt_self (by omega) (by omega)

/-- Embedding of `JSON.stringify`'s escaping of one string character: `"` and `\\` are
backslash-escaped, the control characters with short escapes use them
(`\n`, `\t`, `\r`, `\b`, `\f`), any other control character becomes
`\u00XX`, and everything else (including all non-ASCII) is emitted as
itself. -/
def escChar (c : Char) : List Char :=
  if c = '"' then ['\\', '"']
  else if c = '\\' then ['\\', '\\']
  else if c = '\n' then ['\\', 'n']
  else if c = '\t' then ['\\', 't']
  else if c = '\r' then ['\\', 'r']
  else if c.toNat = 8 then ['\\', 'b']
  else if c.toNat = 12 then ['\\', 'f']
  else if c.toNat < 32 then
    ['\\', 'u', '0', '0', hexDig (c.toNat / 16), hexDig (c.toNat % 16)]
  else [c]

/-- Escape every character of a string body. -/
def escStr : List Char → List Char
  | [] => []
  | c :: cs => escChar c ++ escStr cs

/-- A JSON string literal: quote, escaped body, quote. -/
def emitStr (s : List Char) : List Char := '"' :: (escStr s ++ ['"'])

/-- JSON insignificant whitespace. -/
def wsChar (c : Char) : Prop := c = ' ' ∨ c = '\n' ∨ c = '\t' ∨ c = '\r'

instance (c : Char) : Decidable (wsChar c) := by
  unfold wsChar
  infer_instance

/-- Drop insignificant whitespace. -/
def skipWs (cs : List Char) : List Char := cs.dropWhile (fun c => decide (wsChar c))

/-- Embedding of `n` spaces of indentation. -/
def pad (n : Nat) : List Char := List.replicate n ' '

/-- Consume one expected token character after whitespace. -/
def expectTok (t : Char) (cs : List Char) : Option (List Char) :=
  match skipWs cs with
  | [] => none
  | c :: rest => if c = t then some rest else none

/-- Consume an exact literal character sequence. -/
def expectChars (lit : List Char) (cs : List Char) : Option (List Char) :=
  match lit, cs with
  | [], _ => some cs
  | _ :: _, [] => none
  | l :: ls, c :: cs2 => if c = l then expectChars ls cs2 else none

/-- Parse the body of a JSON string literal after the opening quote:
characters up to the closing quote, resolving backslash escapes. -/
def parseStrBody : List Char → Option (List Char × List Char)
  | [] => none
  | c :: cs =>
    if c = '"' then some ([], cs)
    else if c = '\\' then
      match cs with
      | [] => none
      | e :: cs2 =>
        if e = '"' then (parseStrBody cs2).map (fun r => ('"' :: r.1, r.2))
        else if e = '\\' then (parseStrBody cs2).map (fun r => ('\\' :: r.1, r.2))
        else if e = 'n' then (parseStrBody cs2).map (fun r => ('\n' :: r.1, r.2))
        else if e = 't' then (parseStrBody cs2).map (fun r => ('\t' :: r.1, r.2))
        else if e = 'r' then (parseStrBody cs2).map (fun r => ('\r' :: r.1, r.2))
        else if e = 'b' then (parseStrBody cs2).map (fun r => (Char.ofNat 8 :: r.1, r.2))
        else if e = 'f' then (parseStrBody cs2).map (fun r => (Char.ofNat 12 :: r.1, r.2))
        else if e = 'u' then
          match cs2 with
          | h1 :: h2 :: h3 :: h4 :: cs3 =>
            match hexVal h1, hexVal h2, hexVal h3, hexVal h4 with
            | some a, some b, some c2, some d =>
              (parseStrBody cs3).map
                (fun r => (Char.ofNat (((a * 16 + b) * 16 + c2) * 16 + d) :: r.1, r.2))
            | _, _, _, _ => none
          | _ => none
        else none
    else (parseStrBody cs).map (fun r => (c :: r.1, r.2))

/-- Parse a JSON string literal (with leading whitespace allowed). -/
def parseJString (cs : List Char) : Option (List Char × List Char) :=
  match expectTok '"' cs with
  | none => none
  | some r => parseStrBody r

/-- Parse a non-negative JSON integer (with leading whitespace allowed). -/
def parseNat (cs : List Char) : Option (Nat × List Char) :=
  let r := skipWs cs
  let ds := r.takeWhile Char.isDigit
  if ds.isEmpty then none else some (digitsToNat ds, r.drop ds.length)

theorem skipWs_length_le (cs : List Char) : (skipWs cs).length ≤ cs.length := by
  induction cs with
  | nil => simp [skipWs]
  | cons c cs ih =>
    by_cases h : wsChar c
    · simp only [skipWs, List.dropWhile_cons, decide_eq_true h, if_true, List.length_cons]
      simp only [skipWs] at ih
      omega
    · simp [skipWs, List.dropWhile_cons, h]

theorem parseStrBody_quote (cs : List Char) : parseStrBody ('"' :: cs) = some ([], cs) := by
  rw [parseStrBody.eq_def]
  simp

theorem parseStrBody_plain (c : Char) (cs : List Char) (h1 : ¬ c = '"') (h2 : ¬ c = '\\') :
    parseStrBody (c :: cs) = (parseStrBody cs).map (fun r => (c :: r.1, r.2)) := by
  rw [parseStrBody.eq_def]
  simp [h1, h2]

theorem parseStrBody_esc_quote (cs : List Char) :
    parseStrBody ('\\' :: '"' :: cs) = (parseStrBody cs).map (fun r => ('"' :: r.1, r.2)) := by
  rw [parseStrBody.eq_def]
  simp

theorem parseStrBody_esc_back (cs : List Char) :
    parseStrBody ('\\' :: '\\' :: cs) = (parseStrBody cs).map (fun r => ('\\' :: r.1, r.2)) := by
  rw [parseStrBody.eq_def]
  simp

theorem parseStrBody_esc_n (cs : List Char) :
    parseStrBody ('\\' :: 'n' :: cs) = (parseStrBody cs).map (fun r => ('\n' :: r.1, r.2)) := by
  rw [parseStrBody.eq_def]
  simp

theorem parseStrBody_esc_t (cs : List Char) :
    parseStrBody ('\\' :: 't' :: cs) = (parseStrBody cs).map (fun r => ('\t' :: r.1, r.2)) := by
  rw [parseStrBody.eq_def]
  simp

theorem parseStrBody_esc_r (cs : List Char) :
    parseStrBody ('\\' :: 'r' :: cs) = (parseStrBody cs).map (fun r => ('\r' :: r.1, r.2)) := by
  rw [parseStrBody.eq_def]
  simp

theorem parseStrBody_esc_b (cs : List Char) :
    parseStrBody ('\\' :: 'b' :: cs) =
      (parseStrBody cs).map (fun r => (Char.ofNat 8 :: r.1, r.2)) := by
  rw [parseStrBody.eq_def]
  simp

theorem parseStrBody_esc_f (cs : List Char) :
    parseStrBody ('\\' :: 'f' :: cs) =
      (parseStrBody cs).map (fun r => (Char.ofNat 12 :: r.1, r.2)) := by
  rw [parseStrBody.eq_def]
  simp

theorem parseStrBody_esc_u (c1 c2 c3 c4 : Char) (cs : List Char) (a b v3 v4 : Nat)
    (h1 : hexVal c1 = some a) (h2 : hexVal c2 = some b) (h3 : hexVal c3 = some v3)
    (h4 : hexVal c4 = some v4) :
    parseStrBody ('\\' :: 'u' :: c1 :: c2 :: c3 :: c4 :: cs) =
      (parseStrBody cs).map
        (fun r => (Char.ofNat (((a * 16 + b) * 16 + v3) * 16 + v4) :: r.1, r.2)) := by
  rw [parseStrBody.eq_def]
  simp [h1, h2, h3, h4]

theorem shrink_map_case (cs2 : List Char) (f : List Char → List Char) (s r : List Char)
    (h : (parseStrBody cs2).map (fun q => (f q.1, q.2)) = some (s, r))
    (ih : ∀ s r, parseStrBody cs2 = some (s, r) → r.length < cs2.length) :
    r.length < cs2.length := by
  rcases Option.map_eq_some'.mp h with ⟨⟨s1, r1⟩, hp, heq⟩
  have hr : r1 = r := congrArg Prod.snd heq
  rw [← hr]
  exact ih s1 r1 hp

theorem parseStrBody_shrink (cs : List Char) :
    ∀ s r, parseStrBody cs = some (s, r) → r.length < cs.length := by
  induction cs using parseStrBody.induct with
  | case1 =>
    intro s r h
    rw [parseStrBody.eq_def] at h
    simp at h
  | case2 cs2 =>
    intro s r h
    rw [parseStrBody_quote] at h
    obtain ⟨_, hr⟩ := Prod.mk.injEq .. ▸ Option.some.injEq .. ▸ h
    rw [← hr]
    simp
  | case3 _ =>
    intro s r h
    rw [parseStrBody.eq_def] at h
    simp at h
  | case4 cs2 _ ih =>
    intro s r h
    rw [parseStrBody_esc_quote] at h
    have := shrink_map_case cs2 _ s r h ih
    simp only [List.length_cons]
    omega
  | case5 cs2 _ _ ih =>
    intro s r h
    rw [parseStrBody_esc_back] at h
    have := shrink_map_case cs2 _ s r h ih
    simp only [List.length_cons]
    omega
  | case6 cs2 _ _ _ ih =>
    intro s r h
    rw [parseStrBody_esc_n] at h
    have := shrink_map_case cs2 _ s r h ih
    simp only [List.length_cons]
    omega
  | case7 cs2 _ _ _ _ ih =>
    intro s r h
    rw [parseStrBody_esc_t] at h
    have := shrink_map_case cs2 _ s r h ih
    simp only [List.length_cons]
    omega
  | case8 cs2 _ _ _ _ _ ih =>
    intro s r h
    rw [parseStrBody_esc_r] at h
    have := shrink_map_case cs2 _ s r h ih
    simp only [List.length_cons]
    omega
  | case9 cs2 _ _ _ _ _ _ ih =>
    intro s r h
    rw [parseStrBody_esc_b] at h
    have := shrink_map_case cs2 _ s r h ih
    simp only [List.length_cons]
    omega
  | case10 cs2 _ _ _ _ _ _ _ ih =>
    intro s r h
    rw [parseStrBody_esc_f] at h
    have := shrink_map_case cs2 _ s r h ih
    simp only [List.length_cons]
    omega
  | case11 c1 c2 c3 c4 cs3 a b v3 v4 hh4 hh3 hh2 hh1 _ _ _ _ _ _ _ _ ih =>
    intro s r h
    rw [parseStrBody_esc_u c1 c2 c3 c4 cs3 a b v3 v4 hh1 hh2 hh3 hh4] at h
    have := shrink_map_case cs3 _ s r h ih
    simp only [List.length_cons]
    omega
  | case12 c1 c2 c3 c4 cs3 hfail =>
    intro s r h
    rw [parseStrBody.eq_def] at h
    simp only [] at h
    rcases ha : hexVal c1 with _ | a <;> rcases hb : hexVal c2 with _ | b <;>
      rcases hc : hexVal c3 with _ | v3 <;> rcases hd : hexVal c4 with _ | v4 <;>
      simp_all
  | case13 cs2 hshort =>
    intro s r h
    rw [parseStrBody.eq_def] at h
    rcases cs2 with _ | ⟨e1, cs3⟩
    · simp at h
    · rcases cs3 with _ | ⟨e2, cs4⟩
      · simp at h
      · rcases cs4 with _ | ⟨e3, cs5⟩
        · simp at h
        · rcases cs5 with _ | ⟨e4, cs6⟩
          · simp at h
          · exact absurd rfl (by intro hh; exact hshort e1 e2 e3 e4 cs6 hh)
  | case14 e cs2 he1 he2 he3 he4 he5 he6 he7 he8 _ =>
    intro s r h
    rw [parseStrBody.eq_def] at h
    simp [he1, he2, he3, he4, he5, he6, he7, he8] at h
  | case15 e cs2 he1 he2 ih =>
    intro s r h
    rw [parseStrBody_plain e cs2 he1 he2] at h
    have := shrink_map_case cs2 _ s r h ih
    simp only [List.length_cons]
    omega

theorem expectTok_shrink (t : Char) (cs r : List Char) (h : expectTok t cs = some r) :
    r.length < cs.length := by
  unfold expectTok at h
  rcases hs : skipWs cs with _ | ⟨c, rest⟩ <;> rw [hs] at h
  · simp at h
  · dsimp only at h
    by_cases hc : c = t
    · rw [if_pos hc] at h
      have hr : rest = r := Option.some.inj h
      have hle := skipWs_length_le cs
      rw [hs] at hle
      rw [← hr]
      simp only [List.length_cons] at hle
      omega
    · rw [if_neg hc] at h
      simp at h

theorem expectChars_le (lit cs r : List Char) (h : expectChars lit cs = some r) :
    r.length ≤ cs.length := by
  induction lit generalizing cs with
  | nil =>
    unfold expectChars at h
    rw [← Option.some.inj h]
  | cons l ls ih =>
    rcases cs with _ | ⟨c, cs2⟩
    · simp [expectChars] at h
    · unfold expectChars at h
      by_cases hc : c = l
      · rw [if_pos hc] at h
        have := ih cs2 h
        simp only [List.length_cons]
        omega
      · rw [if_neg hc] at h
        simp at h

theorem parseJString_shrink (cs s r : List Char) (h : parseJString cs = some (s, r)) :
    r.length < cs.length := by
  unfold parseJString at h
  rcases he : expectTok '"' cs with _ | r1 <;> rw [he] at h
  · simp at h
  · have h1 := expectTok_shrink _ _ _ he
    have h2 := parseStrBody_shrink r1 s r h
    omega

theorem parseNat_shrink (cs : List Char) (n : Nat) (r : List Char)
    (h : parseNat cs = some (n, r)) : r.length < cs.length := by
  unfold parseNat at h
  by_cases hds : ((skipWs cs).takeWhile Char.isDigit).isEmpty = true
  · rw [if_pos hds] at h
    simp at h
  · rw [if_neg hds] at h
    obtain ⟨_, hr⟩ := Prod.mk.injEq .. ▸ Option.some.inj h
    have hlen : ((skipWs cs).takeWhile Char.isDigit).length ≥ 1 := by
      rcases hcase : (skipWs cs).takeWhile Char.isDigit with _ | _
      · rw [hcase] at hds
        simp at hds
      · simp [hcase]
    have hle := skipWs_length_le cs
    have hsplit := congrArg List.length
      (List.takeWhile_append_dropWhile (p := Char.isDigit) (l := skipWs cs))
    simp only [List.length_append] at hsplit
    have hd : ((skipWs cs).drop ((skipWs cs).takeWhile Char.isDigit).length).length
        = (skipWs cs).length - ((skipWs cs).takeWhile Char.isDigit).length := by
      simp
    rw [← hr]
    omega

/-- Field names of the persisted document. -/
def projectKey : List Char := "project".data

def tasksKey : List Char := "tasks".data

def titleKey : List Char := "title".data

def statusKey : List Char := "status".data

def depsKey : List Char := "dependencies".data

def fileKey : List Char := "file".data

def complexityKey : List Char := "complexity".data

def attemptsKey : List Char := "attempts".data

/-- The JSON string value of a `TaskStatus`. -/
def statusChars : TaskStatus → List Char
  | .pending => "pending".data
  | .inProgress => "in-progress".data
  | .complete => "complete".data
  | .failed => "failed".data
  | .skipped => "skipped".data

/-- Decode a JSON string value into a `TaskStatus`. -/
def statusFromChars (s : List Char) : Option TaskStatus :=
  if s = "pending".data then some .pending
  else if s = "in-progress".data then some .inProgress
  else if s = "complete".data then some .complete
  else if s = "failed".data then some .failed
  else if s = "skipped".data then some .skipped
  else none

/-- The JSON string value of a `Complexity`. -/
def complexityChars : Complexity → List Char
  | .low => "low".data
  | .medium => "medium".data
  | .high => "high".data

/-- Decode a JSON string value into a `Complexity`. -/
def complexityFromChars (s : List Char) : Option Complexity :=
  if s = "low".data then some .low
  else if s = "medium".data then some .medium
  else if s = "high".data then some .high
  else none

/-- Consume `"key":` (whitespace allowed before the opening quote and the
colon is consumed; a following space is left to the value parser). -/
def expectKey (key : List Char) (cs : List Char) : Option (List Char) :=
  match expectTok '"' cs with
  | none => none
  | some r =>
    match expectChars key r with
    | none => none
    | some r2 =>
      match r2 with
      | '"' :: r3 => expectTok ':' r3
      | _ => none

theorem expectKey_shrink (key cs r : List Char) (h : expectKey key cs = some r) :
    r.length < cs.length := by
  unfold expectKey at h
  split at h
  · simp at h
  · rename_i r1 h1
    split at h
    · simp at h
    · rename_i r2 h2
      split at h
      · rename_i r3
        have e1 := expectTok_shrink _ _ _ h1
        have e2 := expectChars_le _ _ _ h2
        have e3 := expectTok_shrink _ _ _ h
        simp only [List.length_cons] at e2
        omega
      · simp at h

/-- Parse the comma-separated items of a non-empty JSON string array, up to
and including the closing bracket. -/
def parseDepsItems (cs : List Char) : Option (List String × List Char) :=
  match h1 : parseJString cs with
  | none => none
  | some (s, r1) =>
    match h2 : expectTok ',' r1 with
    | some r2 =>
      match parseDepsItems r2 with
      | none => none
      | some (ss, r3) => some (String.mk s :: ss, r3)
    | none =>
      match expectTok ']' r1 with
      | none => none
      | some r2 => some ([String.mk s], r2)
termination_by cs.length
decreasing_by
  have e1 := parseJString_shrink _ _ _ h1
  have e2 := expectTok_shrink _ _ _ h2
  omega

theorem parseDepsItems_shrink (cs : List Char) :
    ∀ ss r, parseDepsItems cs = some (ss, r) → r.length < cs.length := by
  induction cs using parseDepsItems.induct with
  | case1 x h1 =>
    intro ss r h
    rw [parseDepsItems] at h
    rw [h1] at h
    simp at h
  | case2 x s r1 h1 r2 h2 h3 ih =>
    intro ss r h
    rw [parseDepsItems] at h
    rw [h1] at h
    dsimp only at h
    rw [h2] at h
    dsimp only at h
    rw [h3] at h
    simp at h
  | case3 x s r1 h1 r2 h2 ss3 r3 h3 ih =>
    intro ss r h
    rw [parseDepsItems] at h
    rw [h1] at h
    dsimp only at h
    rw [h2] at h
    dsimp only at h
    rw [h3] at h
    dsimp only at h
    obtain ⟨_, hr⟩ := Prod.mk.injEq .. ▸ Option.some.inj h
    have e1 := parseJString_shrink _ _ _ h1
    have e2 := expectTok_shrink _ _ _ h2
    have e3 := ih _ _ h3
    rw [← hr]
    omega
  | case4 x s r1 h1 h2 h3 =>
    intro ss r h
    rw [parseDepsItems] at h
    rw [h1] at h
    dsimp only at h
    rw [h2] at h
    dsimp only at h
    rw [h3] at h
    simp at h
  | case5 x s r1 h1 h2 r2 h3 =>
    intro ss r h
    rw [parseDepsItems] at h
    rw [h1] at h
    dsimp only at h
    rw [h2] at h
    dsimp only at h
    rw [h3] at h
    dsimp only at h
    obtain ⟨_, hr⟩ := Prod.mk.injEq .. ▸ Option.some.inj h
    have e1 := parseJString_shrink _ _ _ h1
    have e3 := expectTok_shrink _ _ _ h3
    rw [← hr]
    omega

/-- Parse a JSON array of strings. -/
def parseDepsArr (cs : List Char) : Option (List String × List Char) :=
  match expectTok '[' cs with
  | none => none
  | some r =>
    match expectTok ']' r with
    | none => parseDepsItems r
    | some r2 => some ([], r2)

theorem parseDepsArr_shrink (cs : List Char) (ss : List String) (r : List Char)
    (h : parseDepsArr cs = some (ss, r)) : r.length < cs.length := by
  unfold parseDepsArr at h
  split at h
  · simp at h
  · rename_i r1 h1
    split at h
    · have e1 := expectTok_shrink _ _ _ h1
      have e2 := parseDepsItems_shrink _ _ _ h
      omega
    · rename_i r2 h2
      obtain ⟨_, hr⟩ := Prod.mk.injEq .. ▸ Option.some.inj h
      have e1 := expectTok_shrink _ _ _ h1
      have e2 := expectTok_shrink _ _ _ h2
      rw [← hr]
      omega

/-- Parse one task object `{ "title": …, "status": …, "dependencies": …,
"file": …, "complexity": …, "attempts": … }` (the field order produced by
the serializer and documented in the external-interface section of the
specification). -/
def parseTaskObj (cs : List Char) : Option (SlimTask × List Char) :=
  match expectTok '{' cs with
  | none => none
  | some r1 =>
  match expectKey titleKey r1 with
  | none => none
  | some r2 =>
  match parseJString r2 with
  | none => none
  | some (title, r3) =>
  match expectTok ',' r3 with
  | none => none
  | some r4 =>
  match expectKey statusKey r4 with
  | none => none
  | some r5 =>
  match parseJString r5 with
  | none => none
  | some (st, r6) =>
  match statusFromChars st with
  | none => none
  | some status =>
  match expectTok ',' r6 with
  | none => none
  | some r7 =>
  match expectKey depsKey r7 with
  | none => none
  | some r8 =>
  match parseDepsArr r8 with
  | none => none
  | some (deps, r9) =>
  match expectTok ',' r9 with
  | none => none
  | some r10 =>
  match expectKey fileKey r10 with
  | none => none
  | some r11 =>
  match parseJString r11 with
  | none => none
  | some (file, r12) =>
  match expectTok ',' r12 with
  | none => none
  | some r13 =>
  match expectKey complexityKey r13 with
  | none => none
  | some r14 =>
  match parseJString r14 with
  | none => none
  | some (cx, r15) =>
  match complexityFromChars cx with
  | none => none
  | some complexity =>
  match expectTok ',' r15 with
  | none => none
  | some r16 =>
  match expectKey attemptsKey r16 with
  | none => none
  | some r17 =>
  match parseNat r17 with
  | none => none
  | some (attempts, r18) =>
  match expectTok '}' r18 with
  | none => none
  | some r19 =>
    some ({ title := String.mk title, status := status,
            dependencies := deps, file := String.mk file,
            complexity := complexity, attempts := attempts }, r19)

theorem parseTaskObj_shrink (cs : List Char) (t : SlimTask) (r : List Char)
    (h : parseTaskObj cs = some (t, r)) : r.length < cs.length := by
  unfold parseTaskObj at h
  split at h
  · simp at h
  rename_i r1 h1
  split at h
  · simp at h
  rename_i r2 h2
  split at h
  · simp at h
  rename_i title r3 h3
  split at h
  · simp at h
  rename_i r4 h4
  split at h
  · simp at h
  rename_i r5 h5
  split at h
  · simp at h
  rename_i st r6 h6
  split at h
  · simp at h
  rename_i status h7
  split at h
  · simp at h
  rename_i r7 h8
  split at h
  · simp at h
  rename_i r8 h9
  split at h
  · simp at h
  rename_i deps r9 h10
  split at h
  · simp at h
  rename_i r10 h11
  split at h
  · simp at h
  rename_i r11 h12
  split at h
  · simp at h
  rename_i file r12 h13
  split at h
  · simp at h
  rename_i r13 h14
  split at h
  · simp at h
  rename_i r14 h15
  split at h
  · simp at h
  rename_i cx r15 h16
  split at h
  · simp at h
  rename_i complexity h17
  split at h
  · simp at h
  rename_i r16 h18
  split at h
  · simp at h
  rename_i r17 h19
  split at h
  · simp at h
  rename_i attempts r18 h20
  split at h
  · simp at h
  rename_i r19 h21
  obtain ⟨_, hr⟩ := Prod.mk.injEq .. ▸ Option.some.inj h
  have e1 := expectTok_shrink _ _ _ h1
  have e2 := expectKey_shrink _ _ _ h2
  have e3 := parseJString_shrink _ _ _ h3
  have e4 := expectTok_shrink _ _ _ h4
  have e5 := expectKey_shrink _ _ _ h5
  have e6 := parseJString_shrink _ _ _ h6
  have e8 := expectTok_shrink _ _ _ h8
  have e9 := expectKey_shrink _ _ _ h9
  have e10 := parseDepsArr_shrink _ _ _ h10
  have e11 := expectTok_shrink _ _ _ h11
  have e12 := expectKey_shrink _ _ _ h12
  have e13 := parseJString_shrink _ _ _ h13
  have e14 := expectTok_shrink _ _ _ h14
  have e15 := expectKey_shrink _ _ _ h15
  have e16 := parseJString_shrink _ _ _ h16
  have e18 := expectTok_shrink _ _ _ h18
  have e19 := expectKey_shrink _ _ _ h19
  have e20 := parseNat_shrink _ _ _ h20
  have e21 := expectTok_shrink _ _ _ h21
  rw [← hr]
  omega

/-- Parse the comma-separated entries of a non-empty `tasks` object, up to
and including the closing brace. -/
def parseTaskItems (cs : List Char) : Option (List (String × SlimTask) × List Char) :=
  match h1 : parseJString cs with
  | none => none
  | some (key, r1) =>
    match h2 : expectTok ':' r1 with
    | none => none
    | some r2 =>
      match h3 : parseTaskObj r2 with
      | none => none
      | some (t, r3) =>
        match h4 : expectTok ',' r3 with
        | some r4 =>
          match parseTaskItems r4 with
          | none => none
          | some (ps, r5) => some ((String.mk key, t) :: ps, r5)
        | none =>
          match expectTok '}' r3 with
          | none => none
          | some r4 => some ([(String.mk key, t)], r4)
termination_by cs.length
decreasing_by
  have e1 := parseJString_shrink _ _ _ h1
  have e2 := expectTok_shrink _ _ _ h2
  have e3 := parseTaskObj_shrink _ _ _ h3
  have e4 := expectTok_shrink _ _ _ h4
  omega

/-- Parse the `tasks` object: `{}` or `{ entries… }`. -/
def parseTasksObj (cs : List Char) : Option (List (String × SlimTask) × List Char) :=
  match expectTok '{' cs with
  | none => none
  | some r =>
    match expectTok '}' r with
    | none => parseTaskItems r
    | some r2 => some ([], r2)

/-- Parse a whole persisted task-graph document:
`{ "project": …, "tasks": { … } }` followed only by whitespace. -/
def parseDocChars (cs : List Char) : Option TaskGraphData :=
  match expectTok '{' cs with
  | none => none
  | some r1 =>
  match expectKey projectKey r1 with
  | none => none
  | some r2 =>
  match parseJString r2 with
  | none => none
  | some (project, r3) =>
  match expectTok ',' r3 with
  | none => none
  | some r4 =>
  match expectKey tasksKey r4 with
  | none => none
  | some r5 =>
  match parseTasksObj r5 with
  | none => none
  | some (tasks, r6) =>
  match expectTok '}' r6 with
  | none => none
  | some r7 =>
    match skipWs r7 with
    | [] => some { project := String.mk project, tasks := tasks }
    | _ => none

/-- Embedding of `JSON.parse` on the documented document format. -/
def parseDoc (s : String) : Option TaskGraphData := parseDocChars s.data

/-! ### The serializer (`JSON.stringify(data, null, 2)`) -/

/-- One `  "key": value` line fragment at indentation `ind` (without the
trailing separator). -/
def emitField (ind : Nat) (key value : List Char) : List Char :=
  pad ind ++ '"' :: (key ++ '"' :: ':' :: ' ' :: value)

/-- Items of a non-empty string array, one per line at indentation
`ind`, separated by `,\n`. -/
def emitDepItems (ind : Nat) : List String → List Char
  | [] => []
  | [d] => pad ind ++ emitStr d.data
  | d :: ds => pad ind ++ (emitStr d.data ++ ',' :: '\n' :: emitDepItems ind ds)

/-- A JSON string array as `JSON.stringify(·, null, 2)` prints it at
indentation `ind`: `[]` when empty, otherwise one item per line. -/
def emitDeps (ind : Nat) (deps : List String) : List Char :=
  match deps with
  | [] => ['[', ']']
  | _ => '[' :: '\n' :: (emitDepItems (ind + 2) deps ++ '\n' :: (pad ind ++ [']']))

/-- One task object at indentation `ind` (fields at `ind + 2`). -/
def emitTask (ind : Nat) (t : SlimTask) : List Char :=
  '{' :: '\n' ::
  (emitField (ind + 2) titleKey (emitStr t.title.data) ++ ',' :: '\n' ::
  (emitField (ind + 2) statusKey (emitStr (statusChars t.status)) ++ ',' :: '\n' ::
  (emitField (ind + 2) depsKey (emitDeps (ind + 2) t.dependencies) ++ ',' :: '\n' ::
  (emitField (ind + 2) fileKey (emitStr t.file.data) ++ ',' :: '\n' ::
  (emitField (ind + 2) complexityKey (emitStr (complexityChars t.complexity)) ++ ',' :: '\n' ::
  (emitField (ind + 2) attemptsKey (natDigits t.attempts) ++ '\n' ::
  (pad ind ++ ['}'])))))))

/-- Entries of a non-empty `tasks` object, one per line at indentation
`ind`. -/
def emitTaskItems (ind : Nat) : List (String × SlimTask) → List Char
  | [] => []
  | [p] => pad ind ++ '"' :: (escStr p.1.data ++ '"' :: ':' :: ' ' :: emitTask ind p.2)
  | p :: ps =>
    pad ind ++ '"' :: (escStr p.1.data ++ '"' :: ':' :: ' ' ::
      (emitTask ind p.2 ++ ',' :: '\n' :: emitTaskItems ind ps))

/-- The `tasks` object at indentation `ind`. -/
def emitTasks (ind : Nat) (tasks : List (String × SlimTask)) : List Char :=
  match tasks with
  | [] => ['{', '}']
  | _ => '{' :: '\n' :: (emitTaskItems (ind + 2) tasks ++ '\n' :: (pad ind ++ ['}']))

/-- The whole document as `JSON.stringify(data, null, 2)` prints it. -/
def emitDoc (d : TaskGraphData) : List Char :=
  '{' :: '\n' ::
  (emitField 2 projectKey (emitStr d.project.data) ++ ',' :: '\n' ::
  (emitField 2 tasksKey (emitTasks 2 d.tasks) ++ '\n' :: ['}']))

/-- Embedding of `JSON.stringify(data, null, 2)` as a string. -/
def stringifyDoc (d : TaskGraphData) : String := String.mk (emitDoc d)

/-! ### Filesystem model -/

/-- A filesystem operation performed by `save()`. -/
inductive FsOp where
  | write (path content : String)
  | rename (src dst : String)
deriving DecidableEq, Repr

/-- A filesystem: association list from path to file content (newest
binding first). -/
abbrev FileSystem := List (String × String)

/-- Read a file. -/
def fsGet (fs : FileSystem) (path : String) : Option String :=
  (fs.find? (fun p => p.1 == path)).map (fun p => p.2)

/-- Write (create or overwrite) a file. -/
def fsSet (fs : FileSystem) (path content : String) : FileSystem :=
  (path, content) :: fs.filter (fun p => !(p.1 == path))

/-- Delete a file. -/
def fsDel (fs : FileSystem) (path : String) : FileSystem :=
  fs.filter (fun p => !(p.1 == path))

/-- Apply one filesystem operation (`rename` moves the source file over
the destination, as POSIX `rename(2)` does). -/
def applyFsOp (fs : FileSystem) : FsOp → FileSystem
  | .write path content => fsSet fs path content
  | .rename src dst =>
    match fsGet fs src with
    | none => fs
    | some content => fsSet (fsDel fs src) dst content

/-- Apply a sequence of filesystem operations in order. -/
def applyFsOps (fs : FileSystem) (ops : List FsOp) : FileSystem :=
  ops.foldl applyFsOp fs

/-- The in-memory `TaskGraph` handle: the parsed document bound to the
path it was loaded from. -/
structure TaskGraph where
  data : TaskGraphData
  filePath : String
deriving DecidableEq, Repr

/-- Embedding of `TaskGraph.load(filePath)`: read the file and `JSON.parse` it; a
missing file or malformed document is an error. -/
def TaskGraph.load (fs : FileSystem) (filePath : String) : Except String TaskGraph :=
  match fsGet fs filePath with
  | none => Except.error ("File not found: " ++ filePath)
  | some raw =>
    match parseDoc raw with
    | none => Except.error "MalformedDocument"
    | some d => Except.ok { data := d, filePath := filePath }

/-- Embedding of `TaskGraph.save()`: write the full serialization (plus trailing
newline) to `filePath + ".tmp." + Date.now()`, then rename the temporary
file over `filePath`.  `now` stands for the `Date.now()` timestamp. -/
def TaskGraph.saveOps (tg : TaskGraph) (now : Nat) : List FsOp :=
  [FsOp.write (tg.filePath ++ ".tmp." ++ toString now) (stringifyDoc tg.data ++ "\n"),
   FsOp.rename (tg.filePath ++ ".tmp." ++ toString now) tg.filePath]

/-! ### Round trip: the parser recovers what the serializer emits -/

theorem skipWs_eats (w l : List Char) (hw : ∀ c ∈ w, wsChar c) :
    skipWs (w ++ l) = skipWs l := by
  induction w with
  | nil => simp
  | cons c cs ih =>
    have hc : wsChar c := hw c (List.mem_cons_self _ _)
    simp only [List.cons_append, skipWs, List.dropWhile_cons, decide_eq_true hc, if_true]
    exact ih (fun x hx => hw x (List.mem_cons_of_mem _ hx))

theorem skipWs_cons_not (c : Char) (l : List Char) (hc : ¬ wsChar c) :
    skipWs (c :: l) = c :: l := by
  simp [skipWs, List.dropWhile_cons, hc]

theorem pad_ws (n : Nat) : ∀ c ∈ pad n, wsChar c := by
  intro c hc
  rw [pad, List.mem_replicate] at hc
  rw [hc.2]
  left
  rfl

theorem nl_pad_ws (n : Nat) : ∀ c ∈ '\n' :: pad n, wsChar c := by
  intro c hc
  rcases List.mem_cons.mp hc with rfl | hc
  · right; left; rfl
  · exact pad_ws n c hc

theorem expectTok_ws (t : Char) (w l : List Char) (hw : ∀ c ∈ w, wsChar c) :
    expectTok t (w ++ l) = expectTok t l := by
  unfold expectTok
  rw [skipWs_eats w l hw]

theorem expectTok_emit (t : Char) (l : List Char) (ht : ¬ wsChar t) :
    expectTok t (t :: l) = some l := by
  unfold expectTok
  rw [skipWs_cons_not t l ht]
  simp

theorem expectTok_miss (t c : Char) (l : List Char) (hc : ¬ wsChar c) (hne : ¬ c = t) :
    expectTok t (c :: l) = none := by
  unfold expectTok
  rw [skipWs_cons_not c l hc]
  simp [hne]

theorem parseJString_ws (w l : List Char) (hw : ∀ c ∈ w, wsChar c) :
    parseJString (w ++ l) = parseJString l := by
  unfold parseJString
  rw [expectTok_ws _ _ _ hw]

theorem parseNat_ws (w l : List Char) (hw : ∀ c ∈ w, wsChar c) :
    parseNat (w ++ l) = parseNat l := by
  unfold parseNat
  rw [skipWs_eats w l hw]

theorem expectKey_ws (key w l : List Char) (hw : ∀ c ∈ w, wsChar c) :
    expectKey key (w ++ l) = expectKey key l := by
  unfold expectKey
  rw [expectTok_ws _ _ _ hw]

theorem parseDepsItems_ws (w l : List Char) (hw : ∀ c ∈ w, wsChar c) :
    parseDepsItems (w ++ l) = parseDepsItems l := by
  rw [parseDepsItems, parseDepsItems, parseJString_ws w l hw]

theorem parseDepsArr_ws (w l : List Char) (hw : ∀ c ∈ w, wsChar c) :
    parseDepsArr (w ++ l) = parseDepsArr l := by
  unfold parseDepsArr
  rw [expectTok_ws _ _ _ hw]

theorem parseTaskObj_ws (w l : List Char) (hw : ∀ c ∈ w, wsChar c) :
    parseTaskObj (w ++ l) = parseTaskObj l := by
  unfold parseTaskObj
  rw [expectTok_ws _ _ _ hw]

theorem parseTaskItems_ws (w l : List Char) (hw : ∀ c ∈ w, wsChar c) :
    parseTaskItems (w ++ l) = parseTaskItems l := by
  rw [parseTaskItems, parseTaskItems, parseJString_ws w l hw]

theorem parseTasksObj_ws (w l : List Char) (hw : ∀ c ∈ w, wsChar c) :
    parseTasksObj (w ++ l) = parseTasksObj l := by
  unfold parseTasksObj
  rw [expectTok_ws _ _ _ hw]

theorem expectChars_self (lit rest : List Char) :
    expectChars lit (lit ++ rest) = some rest := by
  induction lit with
  | nil => rfl
  | cons l ls ih =>
    simp only [List.cons_append]
    unfold expectChars
    rw [if_pos rfl]
    exact ih

theorem expectKey_emit (key tail : List Char) :
    expectKey key ('"' :: (key ++ '"' :: ':' :: tail)) = some tail := by
  unfold expectKey
  rw [expectTok_emit '"' _ (by intro h; rcases h with h | h | h | h <;> simp at h)]
  dsimp only
  rw [expectChars_self]
  show expectTok ':' (':' :: tail) = some tail
  rw [expectTok_emit ':' _ (by intro h; rcases h with h | h | h | h <;> simp at h)]

theorem hexVal_hexDig (n : Nat) (h : n < 16) : hexVal (hexDig n) = some n := by
  interval_cases n <;> decide

theorem parseStrBody_escChar (c : Char) (tl : List Char) :
    parseStrBody (escChar c ++ tl) = (parseStrBody tl).map (fun r => (c :: r.1, r.2)) := by
  unfold escChar
  by_cases h1 : c = '"'
  · subst h1
    rw [if_pos rfl]
    exact parseStrBody_esc_quote tl
  · rw [if_neg h1]
    by_cases h2 : c = '\\'
    · subst h2
      rw [if_pos rfl]
      exact parseStrBody_esc_back tl
    · rw [if_neg h2]
      by_cases h3 : c = '\n'
      · subst h3
        rw [if_pos rfl]
        exact parseStrBody_esc_n tl
      · rw [if_neg h3]
        by_cases h4 : c = '\t'
        · subst h4
          rw [if_pos rfl]
          exact parseStrBody_esc_t tl
        · rw [if_neg h4]
          by_cases h5 : c = '\r'
          · subst h5
            rw [if_pos rfl]
            exact parseStrBody_esc_r tl
          · rw [if_neg h5]
            by_cases h6 : c.toNat = 8
            · rw [if_pos h6]
              rw [show ((['\\', 'b'] : List Char) ++ tl) = '\\' :: 'b' :: tl from rfl]
              rw [parseStrBody_esc_b]
              rw [show (8 : Nat) = c.toNat from h6.symm, Char.ofNat_toNat]
            · rw [if_neg h6]
              by_cases h7 : c.toNat = 12
              · rw [if_pos h7]
                rw [show ((['\\', 'f'] : List Char) ++ tl) = '\\' :: 'f' :: tl from rfl]
                rw [parseStrBody_esc_f]
                rw [show (12 : Nat) = c.toNat from h7.symm, Char.ofNat_toNat]
              · rw [if_neg h7]
                by_cases h8 : c.toNat < 32
                · rw [if_pos h8]
                  rw [show ((['\\', 'u', '0', '0', hexDig (c.toNat / 16),
                      hexDig (c.toNat % 16)] : List Char) ++ tl)
                    = '\\' :: 'u' :: '0' :: '0' :: hexDig (c.toNat / 16) ::
                      hexDig (c.toNat % 16) :: tl from rfl]
                  rw [parseStrBody_esc_u '0' '0' (hexDig (c.toNat / 16))
                    (hexDig (c.toNat % 16)) tl 0 0 (c.toNat / 16) (c.toNat % 16)
                    (by decide) (by decide) (hexVal_hexDig _ (by omega))
                    (hexVal_hexDig _ (by omega))]
                  have hv : ((0 * 16 + 0) * 16 + c.toNat / 16) * 16 + c.toNat % 16
                      = c.toNat := by omega
                  rw [hv, Char.ofNat_toNat]
                · rw [if_neg h8]
                  exact parseStrBody_plain c tl h1 h2

theorem parseStrBody_escStr (s tl : List Char) :
    parseStrBody (escStr s ++ '"' :: tl) = some (s, tl) := by
  induction s with
  | nil =>
    rw [escStr]
    simp only [List.nil_append]
    exact parseStrBody_quote tl
  | cons c cs ih =>
    rw [escStr, List.append_assoc, parseStrBody_escChar, ih]
    rfl

theorem parseJString_emit (s tl : List Char) :
    parseJString (emitStr s ++ tl) = some (s, tl) := by
  unfold parseJString emitStr
  simp only [List.cons_append, List.append_assoc, List.cons_append]
  rw [expectTok_emit '"' _ (by intro h; rcases h with h | h | h | h <;> simp at h)]
  dsimp only
  exact parseStrBody_escStr s tl

theorem digitChar_isDigit (n : Nat) (h : n < 10) : (digitChar n).isDigit = true := by
  interval_cases n <;> decide

theorem digitChar_toNat (n : Nat) (h : n < 10) : (digitChar n).toNat = 48 + n := by
  interval_cases n <;> decide

theorem natDigits_ne_nil (n : Nat) : natDigits n ≠ [] := by
  rw [natDigits]
  split <;> simp

theorem natDigits_all_digits (n : Nat) : ∀ c ∈ natDigits n, c.isDigit = true := by
  induction n using natDigits.induct with
  | case1 n h =>
    rw [natDigits, dif_pos h]
    intro c hc
    rw [List.mem_singleton.mp hc]
    exact digitChar_isDigit n h
  | case2 n h ih =>
    rw [natDigits, dif_neg h]
    intro c hc
    rcases List.mem_append.mp hc with hm | hm
    · exact ih c hm
    · rw [List.mem_singleton.mp hm]
      exact digitChar_isDigit _ (Nat.mod_lt _ (by omega))

theorem digitsToNat_append_single (ds : List Char) (c : Char) :
    digitsToNat (ds ++ [c]) = 10 * digitsToNat ds + (c.toNat - 48) := by
  unfold digitsToNat
  rw [List.foldl_append]
  simp
  omega

theorem digitsToNat_natDigits (n : Nat) : digitsToNat (natDigits n) = n := by
  induction n using natDigits.induct with
  | case1 n h =>
    rw [natDigits, dif_pos h]
    unfold digitsToNat
    simp [digitChar_toNat n h]
  | case2 n h ih =>
    rw [natDigits, dif_neg h]
    rw [digitsToNat_append_single, ih]
    rw [digitChar_toNat _ (Nat.mod_lt _ (by omega))]
    omega

theorem digit_not_ws (c : Char) (h : c.isDigit = true) : ¬ wsChar c := by
  intro hw
  rcases hw with rfl | rfl | rfl | rfl <;> simp at h

theorem parseNat_emit (n : Nat) (rest : List Char)
    (hrest : rest.takeWhile Char.isDigit = []) :
    parseNat (natDigits n ++ rest) = some (n, rest) := by
  unfold parseNat
  rcases hnd : natDigits n with _ | ⟨d, ds⟩
  · exact absurd hnd (natDigits_ne_nil n)
  · have hdall : ∀ c ∈ natDigits n, c.isDigit = true := natDigits_all_digits n
    rw [hnd] at hdall
    have hskip : skipWs ((d :: ds) ++ rest) = (d :: ds) ++ rest := by
      rw [List.cons_append]
      exact skipWs_cons_not _ _ (digit_not_ws d (hdall d (List.mem_cons_self _ _)))
    rw [hskip]
    have htw : ((d :: ds) ++ rest).takeWhile Char.isDigit = d :: ds := by
      rw [List.takeWhile_append_of_pos hdall, hrest, List.append_nil]
    dsimp only
    rw [htw]
    have hne : (d :: ds).isEmpty = false := by simp
    rw [hne]
    simp only [Bool.false_eq_true, if_false]
    rw [← hnd, digitsToNat_natDigits]
    rw [hnd, List.drop_left]

theorem statusFromChars_statusChars (st : TaskStatus) :
    statusFromChars (statusChars st) = some st := by
  cases st <;> decide

theorem complexityFromChars_complexityChars (cx : Complexity) :
    complexityFromChars (complexityChars cx) = some cx := by
  cases cx <;> decide

theorem stringMk_data (s : String) : String.mk s.data = s := rfl

theorem not_ws_rbrack : ¬ wsChar ']' := by
  intro h
  rcases h with h | h | h | h <;> simp at h

theorem not_ws_rbrace : ¬ wsChar '}' := by
  intro h
  rcases h with h | h | h | h <;> simp at h

theorem not_ws_comma : ¬ wsChar ',' := by
  intro h
  rcases h with h | h | h | h <;> simp at h

theorem not_ws_lbrack : ¬ wsChar '[' := by
  intro h
  rcases h with h | h | h | h <;> simp at h

theorem not_ws_lbrace : ¬ wsChar '{' := by
  intro h
  rcases h with h | h | h | h <;> simp at h

theorem not_ws_quote : ¬ wsChar '"' := by
  intro h
  rcases h with h | h | h | h <;> simp at h

theorem parseDepsItems_emit (ind : Nat) (d : String) (ds : List String)
    (w rest : List Char) (hw : ∀ c ∈ w, wsChar c) :
    parseDepsItems (emitDepItems ind (d :: ds) ++ (w ++ ']' :: rest)) = some (d :: ds, rest) := by
  induction ds generalizing d with
  | nil =>
    show parseDepsItems ((pad ind ++ emitStr d.data) ++ (w ++ ']' :: rest))
      = some ([d], rest)
    simp only [List.append_assoc]
    rw [parseDepsItems_ws _ _ (pad_ws ind)]
    rw [parseDepsItems]
    rw [parseJString_emit]
    dsimp only
    rw [expectTok_ws ',' w _ hw, expectTok_miss ',' ']' rest not_ws_rbrack (by decide)]
    dsimp only
    rw [expectTok_ws ']' w _ hw, expectTok_emit ']' rest not_ws_rbrack]
  | cons d2 ds2 ih =>
    show parseDepsItems ((pad ind ++ (emitStr d.data ++ ',' :: '\n' ::
        emitDepItems ind (d2 :: ds2))) ++ (w ++ ']' :: rest)) = some (d :: d2 :: ds2, rest)
    simp only [List.append_assoc, List.cons_append]
    rw [parseDepsItems_ws _ _ (pad_ws ind)]
    rw [parseDepsItems]
    rw [parseJString_emit]
    dsimp only
    rw [expectTok_emit ',' _ not_ws_comma]
    dsimp only
    rw [show ('\n' :: (emitDepItems ind (d2 :: ds2) ++ (w ++ ']' :: rest)))
        = ['\n'] ++ (emitDepItems ind (d2 :: ds2) ++ (w ++ ']' :: rest)) from rfl]
    rw [parseDepsItems_ws ['\n'] _ (by intro c hc; rw [List.mem_singleton.mp hc]; right; left; rfl)]
    rw [ih d2]

theorem emitDepItems_shape (ind : Nat) (d : String) (ds : List String) :
    ∃ t, emitDepItems ind (d :: ds) = pad ind ++ ('"' :: t) := by
  cases ds with
  | nil =>
    refine ⟨escStr d.data ++ ['"'], ?_⟩
    rw [emitDepItems, emitStr]
  | cons d2 ds2 =>
    refine ⟨escStr d.data ++ ['"'] ++ (',' :: '\n' :: emitDepItems ind (d2 :: ds2)), ?_⟩
    show pad ind ++ (emitStr d.data ++ ',' :: '\n' :: emitDepItems ind (d2 :: ds2)) = _
    rw [emitStr]
    simp [List.append_assoc]

theorem parseDepsArr_emit (ind : Nat) (deps : List String) (rest : List Char) :
    parseDepsArr (emitDeps ind deps ++ rest) = some (deps, rest) := by
  cases deps with
  | nil =>
    show parseDepsArr (['[', ']'] ++ rest) = some ([], rest)
    unfold parseDepsArr
    rw [show ((['[', ']'] : List Char) ++ rest) = '[' :: ']' :: rest from rfl]
    rw [expectTok_emit '[' _ not_ws_lbrack]
    dsimp only
    rw [expectTok_emit ']' _ not_ws_rbrack]
  | cons d ds =>
    show parseDepsArr (('[' :: '\n' :: (emitDepItems (ind + 2) (d :: ds) ++ '\n' ::
        (pad ind ++ [']']))) ++ rest) = some (d :: ds, rest)
    unfold parseDepsArr
    simp only [List.cons_append, List.append_assoc, List.singleton_append, List.nil_append]
    rw [expectTok_emit '[' _ not_ws_lbrack]
    dsimp only
    obtain ⟨t, ht⟩ := emitDepItems_shape (ind + 2) d ds
    have hnone : expectTok ']'
        ('\n' :: (emitDepItems (ind + 2) (d :: ds) ++ '\n' :: (pad ind ++ ']' :: rest)))
        = none := by
      rw [show ('\n' :: (emitDepItems (ind + 2) (d :: ds) ++ '\n' :: (pad ind ++ ']' :: rest)))
          = ['\n'] ++ (emitDepItems (ind + 2) (d :: ds) ++ '\n' :: (pad ind ++ ']' :: rest))
          from rfl]
      rw [expectTok_ws ']' ['\n'] _
        (by intro c hc; rw [List.mem_singleton.mp hc]; right; left; rfl)]
      rw [ht]
      simp only [List.append_assoc, List.cons_append]
      rw [expectTok_ws ']' (pad (ind + 2)) _ (pad_ws _)]
      exact expectTok_miss ']' '"' _ not_ws_quote (by decide)
    rw [hnone]
    dsimp only
    rw [show ('\n' :: (emitDepItems (ind + 2) (d :: ds) ++ '\n' :: (pad ind ++ ']' :: rest)))
        = ['\n'] ++ (emitDepItems (ind + 2) (d :: ds) ++ (('\n' :: pad ind) ++ (']' :: rest)))
        from by simp]
    rw [parseDepsItems_ws ['\n'] _
      (by intro c hc; rw [List.mem_singleton.mp hc]; right; left; rfl)]
    exact parseDepsItems_emit (ind + 2) d ds ('\n' :: pad ind) rest (nl_pad_ws ind)

theorem expectKey_emit_nlpad (k : Nat) (key tail : List Char) :
    expectKey key ('\n' :: (pad k ++ '"' :: (key ++ '"' :: ':' :: tail))) = some tail := by
  rw [show ('\n' :: (pad k ++ '"' :: (key ++ '"' :: ':' :: tail)))
      = ('\n' :: pad k) ++ ('"' :: (key ++ '"' :: ':' :: tail)) from by simp]
  rw [expectKey_ws key _ _ (nl_pad_ws k)]
  exact expectKey_emit key tail

theorem sp_ws : ∀ c ∈ ([' '] : List Char), wsChar c := by
  intro c hc
  rw [List.mem_singleton.mp hc]
  left
  rfl

theorem parseJString_emit_sp (s : List Char) (X : List Char) :
    parseJString (' ' :: (emitStr s ++ X)) = some (s, X) := by
  rw [show (' ' :: (emitStr s ++ X)) = [' '] ++ (emitStr s ++ X) from rfl]
  rw [parseJString_ws _ _ sp_ws]
  exact parseJString_emit s X

theorem parseDepsArr_emit_sp (ind : Nat) (deps : List String) (X : List Char) :
    parseDepsArr (' ' :: (emitDeps ind deps ++ X)) = some (deps, X) := by
  rw [show (' ' :: (emitDeps ind deps ++ X)) = [' '] ++ (emitDeps ind deps ++ X) from rfl]
  rw [parseDepsArr_ws _ _ sp_ws]
  exact parseDepsArr_emit ind deps X

theorem parseNat_emit_sp (n : Nat) (X : List Char) :
    parseNat (' ' :: (natDigits n ++ '\n' :: X)) = some (n, '\n' :: X) := by
  rw [show (' ' :: (natDigits n ++ '\n' :: X)) = [' '] ++ (natDigits n ++ '\n' :: X) from rfl]
  rw [parseNat_ws _ _ sp_ws]
  exact parseNat_emit n ('\n' :: X) (by rw [List.takeWhile_cons_of_neg (by decide)])

theorem expectTok_nlpad (t : Char) (k : Nat) (rest : List Char) (ht : ¬ wsChar t) :
    expectTok t ('\n' :: (pad k ++ t :: rest)) = some rest := by
  rw [show ('\n' :: (pad k ++ t :: rest)) = ('\n' :: pad k) ++ (t :: rest) from by simp]
  rw [expectTok_ws t _ _ (nl_pad_ws k)]
  exact expectTok_emit t rest ht

theorem parseTaskObj_emit (ind : Nat) (t : SlimTask) (rest : List Char) :
    parseTaskObj (emitTask ind t ++ rest) = some (t, rest) := by
  unfold parseTaskObj
  simp only [emitTask, emitField, List.cons_append, List.append_assoc, List.nil_append]
  rw [expectTok_emit '{' _ not_ws_lbrace]
  dsimp only
  rw [expectKey_emit_nlpad]
  dsimp only
  rw [parseJString_emit_sp]
  dsimp only
  rw [expectTok_emit ',' _ not_ws_comma]
  dsimp only
  rw [expectKey_emit_nlpad]
  dsimp only
  rw [parseJString_emit_sp]
  dsimp only
  rw [statusFromChars_statusChars]
  dsimp only
  rw [expectTok_emit ',' _ not_ws_comma]
  dsimp only
  rw [expectKey_emit_nlpad]
  dsimp only
  rw [parseDepsArr_emit_sp]
  dsimp only
  rw [expectTok_emit ',' _ not_ws_comma]
  dsimp only
  rw [expectKey_emit_nlpad]
  dsimp only
  rw [parseJString_emit_sp]
  dsimp only
  rw [expectTok_emit ',' _ not_ws_comma]
  dsimp only
  rw [expectKey_emit_nlpad]
  dsimp only
  rw [parseJString_emit_sp]
  dsimp only
  rw [complexityFromChars_complexityChars]
  dsimp only
  rw [expectTok_emit ',' _ not_ws_comma]
  dsimp only
  rw [expectKey_emit_nlpad]
  dsimp only
  rw [parseNat_emit_sp]
  dsimp only
  rw [expectTok_nlpad '}' ind rest not_ws_rbrace]

theorem parseJString_emit_key (k : Nat) (s : List Char) (X : List Char) :
    parseJString (pad k ++ '"' :: (escStr s ++ '"' :: X)) = some (s, X) := by
  rw [parseJString_ws _ _ (pad_ws k)]
  unfold parseJString
  rw [expectTok_emit '"' _ not_ws_quote]
  dsimp only
  exact parseStrBody_escStr s X

theorem parseTaskObj_emit_sp (ind : Nat) (t : SlimTask) (X : List Char) :
    parseTaskObj (' ' :: (emitTask ind t ++ X)) = some (t, X) := by
  rw [show (' ' :: (emitTask ind t ++ X)) = [' '] ++ (emitTask ind t ++ X) from rfl]
  rw [parseTaskObj_ws _ _ sp_ws]
  exact parseTaskObj_emit ind t X

theorem parseTaskItems_emit (ind : Nat) (p : String × SlimTask)
    (ps : List (String × SlimTask)) (w rest : List Char) (hw : ∀ c ∈ w, wsChar c) :
    parseTaskItems (emitTaskItems ind (p :: ps) ++ (w ++ '}' :: rest))
      = some (p :: ps, rest) := by
  induction ps generalizing p with
  | nil =>
    show parseTaskItems ((pad ind ++ '"' :: (escStr p.1.data ++ '"' :: ':' :: ' ' ::
        emitTask ind p.2)) ++ (w ++ '}' :: rest)) = some ([p], rest)
    simp only [List.append_assoc, List.cons_append]
    rw [parseTaskItems]
    rw [parseJString_emit_key]
    dsimp only
    rw [expectTok_emit ':' _ (by intro h; rcases h with h | h | h | h <;> simp at h)]
    dsimp only
    rw [parseTaskObj_emit_sp]
    dsimp only
    rw [expectTok_ws ',' w _ hw, expectTok_miss ',' '}' rest not_ws_rbrace (by decide)]
    dsimp only
    rw [expectTok_ws '}' w _ hw, expectTok_emit '}' rest not_ws_rbrace]
  | cons p2 ps2 ih =>
    show parseTaskItems ((pad ind ++ '"' :: (escStr p.1.data ++ '"' :: ':' :: ' ' ::
        (emitTask ind p.2 ++ ',' :: '\n' :: emitTaskItems ind (p2 :: ps2))))
        ++ (w ++ '}' :: rest)) = some (p :: p2 :: ps2, rest)
    simp only [List.append_assoc, List.cons_append]
    rw [parseTaskItems]
    rw [parseJString_emit_key]
    dsimp only
    rw [expectTok_emit ':' _ (by intro h; rcases h with h | h | h | h <;> simp at h)]
    dsimp only
    rw [parseTaskObj_emit_sp]
    dsimp only
    rw [expectTok_emit ',' _ not_ws_comma]
    dsimp only
    rw [show ('\n' :: (emitTaskItems ind (p2 :: ps2) ++ (w ++ '}' :: rest)))
        = ['\n'] ++ (emitTaskItems ind (p2 :: ps2) ++ (w ++ '}' :: rest)) from rfl]
    rw [parseTaskItems_ws ['\n'] _
      (by intro c hc; rw [List.mem_singleton.mp hc]; right; left; rfl)]
    rw [ih p2]

theorem emitTaskItems_shape (ind : Nat) (p : String × SlimTask)
    (ps : List (String × SlimTask)) :
    ∃ t, emitTaskItems ind (p :: ps) = pad ind ++ ('"' :: t) := by
  cases ps with
  | nil =>
    exact ⟨escStr p.1.data ++ '"' :: ':' :: ' ' :: emitTask ind p.2, rfl⟩
  | cons p2 ps2 =>
    exact ⟨escStr p.1.data ++ '"' :: ':' :: ' ' ::
      (emitTask ind p.2 ++ ',' :: '\n' :: emitTaskItems ind (p2 :: ps2)), rfl⟩

theorem parseTasksObj_emit (ind : Nat) (tasks : List (String × SlimTask)) (rest : List Char) :
    parseTasksObj (emitTasks ind tasks ++ rest) = some (tasks, rest) := by
  cases tasks with
  | nil =>
    show parseTasksObj (['{', '}'] ++ rest) = some ([], rest)
    unfold parseTasksObj
    rw [show ((['{', '}'] : List Char) ++ rest) = '{' :: '}' :: rest from rfl]
    rw [expectTok_emit '{' _ not_ws_lbrace]
    dsimp only
    rw [expectTok_emit '}' _ not_ws_rbrace]
  | cons p ps =>
    show parseTasksObj (('{' :: '\n' :: (emitTaskItems (ind + 2) (p :: ps) ++ '\n' ::
        (pad ind ++ ['}']))) ++ rest) = some (p :: ps, rest)
    unfold parseTasksObj
    simp only [List.cons_append, List.append_assoc, List.singleton_append, List.nil_append]
    rw [expectTok_emit '{' _ not_ws_lbrace]
    dsimp only
    obtain ⟨t, ht⟩ := emitTaskItems_shape (ind + 2) p ps
    have hnone : expectTok '}'
        ('\n' :: (emitTaskItems (ind + 2) (p :: ps) ++ '\n' :: (pad ind ++ '}' :: rest)))
        = none := by
      rw [show ('\n' :: (emitTaskItems (ind + 2) (p :: ps) ++ '\n' :: (pad ind ++ '}' :: rest)))
          = ['\n'] ++ (emitTaskItems (ind + 2) (p :: ps) ++ '\n' :: (pad ind ++ '}' :: rest))
          from rfl]
      rw [expectTok_ws '}' ['\n'] _
        (by intro c hc; rw [List.mem_singleton.mp hc]; right; left; rfl)]
      rw [ht]
      simp only [List.append_assoc, List.cons_append]
      rw [expectTok_ws '}' (pad (ind + 2)) _ (pad_ws _)]
      exact expectTok_miss '}' '"' _ not_ws_quote (by decide)
    rw [hnone]
    dsimp only
    rw [show ('\n' :: (emitTaskItems (ind + 2) (p :: ps) ++ '\n' :: (pad ind ++ '}' :: rest)))
        = ['\n'] ++ (emitTaskItems (ind + 2) (p :: ps) ++ (('\n' :: pad ind) ++ ('}' :: rest)))
        from by simp]
    rw [parseTaskItems_ws ['\n'] _
      (by intro c hc; rw [List.mem_singleton.mp hc]; right; left; rfl)]
    exact parseTaskItems_emit (ind + 2) p ps ('\n' :: pad ind) rest (nl_pad_ws ind)

theorem parseTasksObj_emit_sp (ind : Nat) (tasks : List (String × SlimTask)) (X : List Char) :
    parseTasksObj (' ' :: (emitTasks ind tasks ++ X)) = some (tasks, X) := by
  rw [show (' ' :: (emitTasks ind tasks ++ X)) = [' '] ++ (emitTasks ind tasks ++ X) from rfl]
  rw [parseTasksObj_ws _ _ sp_ws]
  exact parseTasksObj_emit ind tasks X

theorem parseDocChars_emit (d : TaskGraphData) :
    parseDocChars (emitDoc d ++ ['\n']) = some d := by
  unfold parseDocChars
  simp only [emitDoc, emitField, List.cons_append, List.append_assoc, List.nil_append]
  rw [expectTok_emit '{' _ not_ws_lbrace]
  dsimp only
  rw [expectKey_emit_nlpad]
  dsimp only
  rw [parseJString_emit_sp]
  dsimp only
  rw [expectTok_emit ',' _ not_ws_comma]
  dsimp only
  rw [expectKey_emit_nlpad]
  dsimp only
  rw [parseTasksObj_emit_sp]
  dsimp only
  rw [show ('\n' :: '}' :: ['\n']) = ['\n'] ++ ('}' :: ['\n']) from rfl]
  rw [expectTok_ws '}' ['\n'] _
    (by intro c hc; rw [List.mem_singleton.mp hc]; right; left; rfl)]
  rw [expectTok_emit '}' _ not_ws_rbrace]
  dsimp only
  rw [show skipWs ['\n'] = [] from by decide]

/-- The round trip at the heart of the persistence layer: parsing what
`save()` serializes (serialization plus trailing newline) recovers the
document exactly. -/
theorem parseDoc_stringifyDoc (d : TaskGraphData) :
    parseDoc (stringifyDoc d ++ "\n") = some d := by
  unfold parseDoc stringifyDoc
  rw [String.data_append]
  exact parseDocChars_emit d

/-! ### The specification claims -/

theorem mem_terminalIds (g : TaskGraphData) (x : String) :
    x ∈ terminalIds g ↔ ∃ u : SlimTask, (x, u) ∈ g.tasks ∧ u.status ∈ TERMINAL_STATUSES := by
  unfold terminalIds
  constructor
  · intro hx
    obtain ⟨p, hp, rfl⟩ := List.mem_map.mp hx
    obtain ⟨hmem, hcond⟩ := List.mem_filter.mp hp
    refine ⟨p.2, hmem, ?_⟩
    have := List.elem_iff.mp hcond
    exact this
  · intro ⟨u, hmem, hst⟩
    refine List.mem_map.mpr ⟨(x, u), List.mem_filter.mpr ⟨hmem, ?_⟩, rfl⟩
    exact List.elem_iff.mpr hst

/-- C1: `readyTasks()` returns exactly the tasks whose status is `pending`
and whose every dependency id is the key of a task in the document with a
terminal status (`complete`, `failed` or `skipped`), sorted by id
ascending, each entry carrying the execution tier given by the
complexity policy (`low` maps to the lightweight tier, `medium` and
`high` to the heavy tier).  In particular a task with a dependency id
that is not a key of the document never appears (membership in the
terminal set requires an entry for the dependency id). -/
theorem readyTasks_correct (g : TaskGraphData) :
    (∀ r : ReadyTask, r ∈ readyTasks g ↔
      ∃ t : SlimTask, (r.id, t) ∈ g.tasks ∧ t.status = TaskStatus.pending ∧
        (∀ dep ∈ t.dependencies,
          ∃ u : SlimTask, (dep, u) ∈ g.tasks ∧ u.status ∈ TERMINAL_STATUSES) ∧
        r = mkReadyTask r.id t)
    ∧ (readyTasks g).Pairwise (fun a b => readyLe a b = true)
    ∧ (∀ r ∈ readyTasks g, r.model = complexityTier r.complexity) := by
  have hmem : ∀ r : ReadyTask, r ∈ readyTasks g ↔
      ∃ t : SlimTask, (r.id, t) ∈ g.tasks ∧ t.status = TaskStatus.pending ∧
        (∀ dep ∈ t.dependencies,
          ∃ u : SlimTask, (dep, u) ∈ g.tasks ∧ u.status ∈ TERMINAL_STATUSES) ∧
        r = mkReadyTask r.id t := by
    intro r
    unfold readyTasks
    rw [mem_sortLe]
    constructor
    · intro hx
      obtain ⟨p, hp, rfl⟩ := List.mem_map.mp hx
      obtain ⟨hmem2, hcond⟩ := List.mem_filter.mp hp
      rw [Bool.and_eq_true_iff] at hcond
      obtain ⟨hpend, hdeps⟩ := hcond
      have hid : (mkReadyTask p.1 p.2).id = p.1 := rfl
      refine ⟨p.2, ?_, ?_, ?_, ?_⟩
      · rw [hid]
        exact hmem2
      · exact beq_iff_eq.mp hpend
      · intro dep hdep
        have hall := List.all_eq_true.mp hdeps dep hdep
        exact (mem_terminalIds g dep).mp ((contains_iff_mem _ _).mp hall)
      · rw [hid]
    · intro ⟨t, hmem2, hpend, hdeps, hr⟩
      rw [hr]
      refine List.mem_map.mpr ⟨(r.id, t), List.mem_filter.mpr ⟨hmem2, ?_⟩, rfl⟩
      rw [Bool.and_eq_true_iff]
      constructor
      · exact beq_iff_eq.mpr hpend
      · refine List.all_eq_true.mpr ?_
        intro dep hdep
        exact (contains_iff_mem _ _).mpr ((mem_terminalIds g dep).mpr (hdeps dep hdep))
  refine ⟨hmem, ?_, ?_⟩
  · exact sortLe_pairwise readyLe readyLe_total readyLe_trans _
  · intro r hr
    obtain ⟨t, _, _, _, hr2⟩ := (hmem r).mp hr
    rw [hr2]
    rcases t with ⟨title, status, deps, file, cx, att⟩
    cases cx <;> rfl

/-- C2: `deriveTaskState` decides exactly as the specification states:
`complete` when the persisted status is `complete` or `skipped`, `failed`
when it is `failed`; otherwise `evaluating` when the result artifact
`<outputDir>/<id>.md` exists, else `scaffolded` when the scaffold marker
exists inside the worktree directory `<worktreeBase>/<id>`, else
`worktree-created` when that directory exists and the status is
`in-progress`, else `pending`; and a `NotFound` error when the id is
absent from the graph. -/
theorem deriveTaskState_correct (taskId : String) (g : TaskGraphData)
    (projectRoot worktreeBase outputDir : String) (fsExists : String → Bool) :
    deriveTaskState taskId g projectRoot worktreeBase outputDir fsExists
      = deriveTaskStateClaim taskId g worktreeBase outputDir fsExists := by
  unfold deriveTaskState deriveTaskStateClaim
  rcases tasksLookup g.tasks taskId with _ | task
  · rfl
  · rcases task with ⟨title, status, deps, file, cx, att⟩
    rcases status <;>
      by_cases hres : fsExists (pathJoin outputDir (taskId ++ ".md")) = true <;>
      by_cases hwt : fsExists (pathJoin worktreeBase taskId) = true <;>
      by_cases hsc : fsExists (pathJoin (pathJoin worktreeBase taskId) SCAFFOLD_MARKER) = true <;>
      simp_all

theorem fsGet_fsSet_self (fs : FileSystem) (p c : String) :
    fsGet (fsSet fs p c) p = some c := by
  unfold fsGet fsSet
  rw [List.find?_cons_of_pos _ (by simp)]
  rfl

/-- C3: loading a valid document and then saving reproduces an equivalent
document: `load` yields the parsed data bound to the path, `save` writes
the full serialization (with trailing newline) to
`path + ".tmp." + uniqueSuffix` *before* renaming that temporary file over
`path`, and the bytes that end up at `path` parse back to the very same
document (same project string and same per-task field values). -/
theorem load_save_roundtrip (fs : FileSystem) (path raw : String) (d : TaskGraphData)
    (now : Nat) (hread : fsGet fs path = some raw) (hparse : parseDoc raw = some d) :
    TaskGraph.load fs path = Except.ok { data := d, filePath := path }
    ∧ TaskGraph.saveOps { data := d, filePath := path } now
        = [FsOp.write (path ++ ".tmp." ++ toString now) (stringifyDoc d ++ "\n"),
           FsOp.rename (path ++ ".tmp." ++ toString now) path]
    ∧ fsGet (applyFsOps fs (TaskGraph.saveOps { data := d, filePath := path } now)) path
        = some (stringifyDoc d ++ "\n")
    ∧ parseDoc (stringifyDoc d ++ "\n") = some d := by
  refine ⟨?_, rfl, ?_, parseDoc_stringifyDoc d⟩
  · unfold TaskGraph.load
    rw [hread]
    dsimp only
    rw [hparse]
  · unfold TaskGraph.saveOps applyFsOps
    simp only [List.foldl_cons, List.foldl_nil]
    dsimp only [applyFsOp]
    rw [fsGet_fsSet_self]
    exact fsGet_fsSet_self _ _ _

/-- C3 witness: a concrete round trip through a one-file filesystem. -/
theorem load_save_roundtrip_witness :
    TaskGraph.load [("graph.json", stringifyDoc { project := "p", tasks := [] } ++ "\n")]
        "graph.json"
      = Except.ok { data := { project := "p", tasks := [] }, filePath := "graph.json" }
    ∧ parseDoc (stringifyDoc { project := "p", tasks := [] } ++ "\n")
      = some { project := "p", tasks := [] } := by
  have h := load_save_roundtrip
    [("graph.json", stringifyDoc { project := "p", tasks := [] } ++ "\n")]
    "graph.json" (stringifyDoc { project := "p", tasks := [] } ++ "\n")
    { project := "p", tasks := [] } 0 rfl
    (parseDoc_stringifyDoc { project := "p", tasks := [] })
  exact ⟨h.1, h.2.2.2⟩

theorem reset_foldl (l : List (String × SlimTask)) (acc : List (String × SlimTask)) (c : Nat) :
    l.foldl
      (fun (acc : List (String × SlimTask) × Nat) p =>
        if p.2.status == TaskStatus.inProgress then
          (acc.1 ++ [(p.1, { p.2 with status := .pending })], acc.2 + 1)
        else
          (acc.1 ++ [p], acc.2))
      (acc, c)
      = (acc ++ l.map (fun p =>
            if p.2.status = TaskStatus.inProgress then (p.1, { p.2 with status := .pending })
            else p),
         c + (l.filter (fun p => p.2.status == TaskStatus.inProgress)).length) := by
  induction l generalizing acc c with
  | nil => simp
  | cons p ps ih =>
    rw [List.foldl_cons]
    by_cases hp : p.2.status = TaskStatus.inProgress
    · rw [if_pos (beq_iff_eq.mpr hp)]
      dsimp only
      rw [ih, List.map_cons, List.filter_cons, if_pos hp, if_pos (beq_iff_eq.mpr hp)]
      rw [Prod.mk.injEq]
      constructor
      · simp [List.append_assoc]
      · simp only [List.length_cons]
        omega
    · rw [if_neg (fun hb => hp (beq_iff_eq.mp hb))]
      dsimp only
      rw [ih, List.map_cons, List.filter_cons, if_neg hp,
        if_neg (fun hb => hp (beq_iff_eq.mp hb))]
      rw [Prod.mk.injEq]
      constructor
      · simp [List.append_assoc]
      · rfl

/-- C4: `resetInterruptedTasks()` sets status to `pending` for exactly the
tasks whose status is `in-progress`, leaves every other task — and every
field other than `status` of every task — unchanged, and returns exactly
the number of tasks it changed. -/
theorem resetInterruptedTasks_correct (g : TaskGraphData) :
    (resetInterruptedTasks g).1.project = g.project
    ∧ (resetInterruptedTasks g).1.tasks
        = g.tasks.map (fun p =>
            if p.2.status = TaskStatus.inProgress then (p.1, { p.2 with status := .pending })
            else p)
    ∧ (resetInterruptedTasks g).1.tasks.map
          (fun p => (p.1, p.2.title, p.2.dependencies, p.2.file, p.2.complexity, p.2.attempts))
        = g.tasks.map
          (fun p => (p.1, p.2.title, p.2.dependencies, p.2.file, p.2.complexity, p.2.attempts))
    ∧ (resetInterruptedTasks g).2
        = (g.tasks.filter (fun p => p.2.status == TaskStatus.inProgress)).length := by
  have hfold := reset_foldl g.tasks [] 0
  have h1 : (resetInterruptedTasks g).1.tasks
      = g.tasks.map (fun p =>
          if p.2.status = TaskStatus.inProgress then (p.1, { p.2 with status := .pending })
          else p) := by
    unfold resetInterruptedTasks
    rw [hfold]
    simp
  refine ⟨?_, h1, ?_, ?_⟩
  · unfold resetInterruptedTasks
    rfl
  · rw [h1, List.map_map]
    apply List.map_congr_left
    intro p _
    by_cases hp : p.2.status = TaskStatus.inProgress <;> simp [hp]
  · unfold resetInterruptedTasks
    rw [hfold]
    simp

theorem dedupAux_not_seen (seen l : List String) :
    ∀ x ∈ dedupAux seen l, x ∉ seen := by
  induction l generalizing seen with
  | nil => simp [dedupAux]
  | cons a as ih =>
    intro x hx
    unfold dedupAux at hx
    by_cases ha : seen.contains a = true
    · rw [if_pos ha] at hx
      exact ih seen x hx
    · rw [if_neg ha] at hx
      rcases List.mem_cons.mp hx with rfl | hx
      · intro hmem
        exact ha ((contains_iff_mem _ _).mpr hmem)
      · intro hmem
        exact ih (seen ++ [a]) x hx (List.mem_append_left _ hmem)

theorem dedupAux_nodup (seen l : List String) : (dedupAux seen l).Nodup := by
  induction l generalizing seen with
  | nil => simp [dedupAux]
  | cons a as ih =>
    unfold dedupAux
    by_cases ha : seen.contains a = true
    · rw [if_pos ha]
      exact ih seen
    · rw [if_neg ha]
      refine List.Nodup.cons ?_ (ih (seen ++ [a]))
      intro hmem
      exact dedupAux_not_seen (seen ++ [a]) as a hmem
        (List.mem_append_right _ (List.mem_singleton.mpr rfl))

theorem dedupKeepFirst_nodup (l : List String) : (dedupKeepFirst l).Nodup :=
  dedupAux_nodup [] l

theorem findIdx_aux_none (l : List String) (a : String) (h : a ∉ l) :
    ∀ i, l.findIdx? (fun d => d == a) i = none := by
  induction l with
  | nil => intro i; rfl
  | cons x xs ih =>
    intro i
    have hxa : ¬ (x == a) = true := by
      intro hb
      exact h (List.mem_cons.mpr (Or.inl (beq_iff_eq.mp hb).symm))
    rw [List.findIdx?_cons, if_neg hxa]
    exact ih (fun hm => h (List.mem_cons_of_mem _ hm)) (i + 1)

theorem findIdx_none_of_not_mem (l : List String) (a : String) (h : a ∉ l) :
    l.findIdx? (fun d => d == a) = none :=
  findIdx_aux_none l a h 0

theorem findIdx_aux_some (l : List String) (a : String) (h : a ∈ l) :
    ∀ i, ∃ j, l.findIdx? (fun d => d == a) i = some j := by
  induction l with
  | nil => simp at h
  | cons x xs ih =>
    intro i
    by_cases hxa : (x == a) = true
    · exact ⟨i, by rw [List.findIdx?_cons, if_pos hxa]⟩
    · have hm : a ∈ xs := by
        rcases List.mem_cons.mp h with rfl | hm
        · exact absurd (beq_iff_eq.mpr rfl) hxa
        · exact hm
      obtain ⟨j, hj⟩ := ih hm (i + 1)
      exact ⟨j, by rw [List.findIdx?_cons, if_neg hxa]; exact hj⟩

theorem findIdx_some_of_mem (l : List String) (a : String) (h : a ∈ l) :
    ∃ i, l.findIdx? (fun d => d == a) = some i :=
  findIdx_aux_some l a h 0

/-- The document used by the C5 counterexample: a single task `T001` that
lists itself among its own dependencies (dependency ids are not validated,
so such a document is representable). -/
def selfLoopDoc : TaskGraphData :=
  { project := "p"
    tasks := [("T001",
      { title := "a", status := .pending, dependencies := ["T001"], file := "f",
        complexity := .low, attempts := 0 })] }

/-- C5 counterexample: `moveDeps` *does* modify the `fromId` task's own
record when that task depends on itself — its dependency list changes from
`["T001"]` to `["T002"]` — refuting the claim that the `fromId` task's own
record is never modified. -/
theorem moveDeps_self_counterexample :
    tasksLookup (moveDeps selfLoopDoc "T001" ["T002"]).tasks "T001"
        ≠ tasksLookup selfLoopDoc.tasks "T001"
    ∧ (tasksLookup (moveDeps selfLoopDoc "T001" ["T002"]).tasks "T001").map
          (fun t => t.dependencies)
        = some ["T002"] := by
  decide

/-- C5 (amended): `moveDeps(fromId, toIds)` replaces, in each task whose
dependency list contains `fromId`, the (first) occurrence of `fromId` in
place with the full `toIds` sequence and then deduplicates the resulting
list preserving first-occurrence order (so the result has no duplicates);
it leaves tasks not containing `fromId` entirely unchanged and touches no
field other than `dependencies`; applied to a document in which no task
depends on `fromId` it is a no-op on the document contents.  The `fromId`
task's own record is unchanged *unless* that task lists `fromId` among its
own dependencies (self-dependency), in which case it is rewired like any
other task. -/
theorem moveDeps_amended (g : TaskGraphData) (fromTaskId : String) (toTaskIds : List String) :
    (moveDeps g fromTaskId toTaskIds).project = g.project
    ∧ (moveDeps g fromTaskId toTaskIds).tasks
        = g.tasks.map (fun p => (p.1, moveDepsTask fromTaskId toTaskIds p.2))
    ∧ (∀ t : SlimTask, fromTaskId ∉ t.dependencies →
        moveDepsTask fromTaskId toTaskIds t = t)
    ∧ (∀ t : SlimTask, fromTaskId ∈ t.dependencies →
        ∃ i, t.dependencies.findIdx? (fun d => d == fromTaskId) = some i
          ∧ (moveDepsTask fromTaskId toTaskIds t).dependencies
              = dedupKeepFirst (spliceReplace t.dependencies i toTaskIds)
          ∧ (moveDepsTask fromTaskId toTaskIds t).title = t.title
          ∧ (moveDepsTask fromTaskId toTaskIds t).status = t.status
          ∧ (moveDepsTask fromTaskId toTaskIds t).file = t.file
          ∧ (moveDepsTask fromTaskId toTaskIds t).complexity = t.complexity
          ∧ (moveDepsTask fromTaskId toTaskIds t).attempts = t.attempts
          ∧ (moveDepsTask fromTaskId toTaskIds t).dependencies.Nodup)
    ∧ ((∀ p ∈ g.tasks, fromTaskId ∉ p.2.dependencies) →
        moveDeps g fromTaskId toTaskIds = g) := by
  have hskip : ∀ t : SlimTask, fromTaskId ∉ t.dependencies →
      moveDepsTask fromTaskId toTaskIds t = t := by
    intro t ht
    unfold moveDepsTask
    rw [findIdx_none_of_not_mem _ _ ht]
  refine ⟨rfl, rfl, hskip, ?_, ?_⟩
  · intro t ht
    obtain ⟨i, hi⟩ := findIdx_some_of_mem _ _ ht
    refine ⟨i, hi, ?_⟩
    unfold moveDepsTask
    rw [hi]
    exact ⟨rfl, rfl, rfl, rfl, rfl, rfl, dedupKeepFirst_nodup _⟩
  · intro hall
    have : g.tasks.map (fun p => (p.1, moveDepsTask fromTaskId toTaskIds p.2)) = g.tasks := by
      have hcongr : ∀ p ∈ g.tasks,
          (p.1, moveDepsTask fromTaskId toTaskIds p.2) = p := by
        intro p hp
        rw [hskip p.2 (hall p hp)]
      calc g.tasks.map (fun p => (p.1, moveDepsTask fromTaskId toTaskIds p.2))
          = g.tasks.map id := List.map_congr_left hcongr
        _ = g.tasks := List.map_id g.tasks
    unfold moveDeps
    rw [this]

/-- A document in which no task depends on the id `Z`. -/
def noDepDoc : TaskGraphData :=
  { project := "q"
    tasks := [("A",
      { title := "t", status := .pending, dependencies := ["B"], file := "f",
        complexity := .low, attempts := 0 })] }

/-- C5 witness: on a document in which no task depends on the moved id,
`moveDeps` leaves the document unchanged. -/
theorem moveDeps_amended_witness : moveDeps noDepDoc "Z" ["Y"] = noDepDoc :=
  (moveDeps_amended noDepDoc "Z" ["Y"]).2.2.2.2 (by decide)

/-- C6: `transitiveDownstream(id)` returns exactly the least fixed point of
repeatedly unioning dependents starting from `id` — formalized by the
inductively defined relation `Downstream` (dependents of `id`, dependents
of dependents, and so on, i.e. reachability over the "depends on me" edge
with at least one step) — with each task appearing at most once, sorted by
id ascending.  `id` itself is a member only if it is reachable from itself
through dependency edges (the iff at `x = id`).  The final conjunct ties
the generator of the fixed point to `dependents()`: the dependent set of
any id is exactly the direct-edge neighbourhood. -/
theorem transitiveDownstream_correct (g : TaskGraphData) (taskId : String) :
    (∀ x, x ∈ transitiveDownstream g taskId ↔ Downstream g taskId x)
    ∧ (transitiveDownstream g taskId).Nodup
    ∧ (transitiveDownstream g taskId).Pairwise (fun a b => strLe a b = true)
    ∧ (∀ x, x ∈ dependents g taskId ↔ dependsOn g x taskId) := by
  refine ⟨mem_transitiveDownstream g taskId, ?_, ?_, mem_dependents g taskId⟩
  · unfold transitiveDownstream
    exact ((sortLe_perm strLe _).nodup_iff).mpr (downstreamAux_nodup g [taskId] [] (by simp))
  · unfold transitiveDownstream
    exact sortLe_pairwise strLe strLe_total strLe_trans _

/-- The document used by the C7 counterexample: its only task id is the
all-digits string `"002"`, which is not of the form `T<digits>`. -/
def numericIdDoc : TaskGraphData :=
  { project := "p"
    tasks := [("002",
      { title := "a", status := .pending, dependencies := [], file := "f",
        complexity := .low, attempts := 0 })] }

/-- C7 counterexample: the id `"002"` does not match `T<digits>`, so under
the claim it would be ignored and `nextTaskId()` would return `"T001"`;
the code instead parses `"002"` to 2 (after stripping no `T`,
`parseInt` accepts the digits) and returns `"T003"`. -/
theorem nextTaskId_counterexample :
    nextTaskId numericIdDoc = "T003" ∧ nextTaskId numericIdDoc ≠ "T001" := by
  constructor
  · rfl
  · decide

theorem nextTaskId_fold_eq (l : List (String × SlimTask)) (a : Int) :
    l.foldl
      (fun mx p =>
        match jsParseInt (stripLeadingT p.1) with
        | none => mx
        | some n => if n > mx then n else mx)
      a
      = (l.filterMap (fun p => jsParseInt (stripLeadingT p.1))).foldl
          (fun mx n => max mx n) a := by
  induction l generalizing a with
  | nil => rfl
  | cons p ps ih =>
    rw [List.foldl_cons, List.filterMap_cons]
    rcases hj : jsParseInt (stripLeadingT p.1) with _ | n <;> dsimp only
    · exact ih a
    · rw [List.foldl_cons]
      have hmax : (if n > a then n else a) = max a n := by
        rcases le_or_lt n a with h | h
        · rw [if_neg (by omega), max_eq_left h]
        · rw [if_pos h, max_eq_right (le_of_lt h)]
      rw [hmax]
      exact ih (max a n)

/-- The T001..T003 document of the specification scenario. -/
def sequentialDoc : TaskGraphData :=
  { project := "p"
    tasks := [
      ("T001",
        { title := "a", status := .complete, dependencies := [], file := "f1",
          complexity := .low, attempts := 0 }),
      ("T002",
        { title := "b", status := .pending, dependencies := ["T001"], file := "f2",
          complexity := .low, attempts := 0 }),
      ("T003",
        { title := "c", status := .pending, dependencies := [], file := "f3",
          complexity := .low, attempts := 0 })] }

/-- C7 (amended): `nextTaskId()` strips one leading `T` (if present) from
each id and applies JavaScript `parseInt` semantics to the remainder —
skip leading whitespace, optional sign, then the longest run of decimal
digits, ignoring any trailing characters; only ids whose remainder yields
no digits at all (`NaN`) are ignored.  It returns one greater than the
maximum value found (never less than 0), zero-padded to three digits.  On
a document containing only `T001..T003` it returns `T004`. -/
theorem nextTaskId_amended :
    (∀ g : TaskGraphData,
      nextTaskId g = "T" ++ padStart3 (toString
        (((g.tasks.filterMap (fun p => jsParseInt (stripLeadingT p.1))).foldl
            (fun mx n => max mx n) 0) + 1)))
    ∧ nextTaskId sequentialDoc = "T004" := by
  constructor
  · intro g
    unfold nextTaskId
    rw [nextTaskId_fold_eq]
  · rfl

/-- C8: when the squash-merge step fails (conflict), `merge` aborts the
in-progress merge (the last action taken is `git merge --abort`, restoring
a clean tree) and returns `false` without raising — no commit and no push
is ever attempted, so no half-merged state remains.  When the merge
commit succeeds but the push of the integration branch fails, the push
failure is logged as a warning only, the local commit is not rolled back
(no abort — indeed nothing beyond the five forward commands — is ever
executed) and `merge` still returns `true`. -/
theorem mergeTask_correct (taskId : String) (cfg : WorktreeConfig) (g : TaskGraphData)
    (git : GitBehavior) :
    (git.mergeSquash.ok = false →
      (mergeTask taskId cfg g git).1 = false
      ∧ (mergeTask taskId cfg g git).2.getLast?
          = some (MergeEvent.run (gitCmd cfg ["merge", "--abort"]))
      ∧ (∀ msg : String,
          MergeEvent.run (gitCmd cfg ["commit", "-m", msg, "--no-edit"])
            ∉ (mergeTask taskId cfg g git).2)
      ∧ MergeEvent.run (gitCmd cfg ["push", "origin", cfg.integrationBranch])
          ∉ (mergeTask taskId cfg g git).2)
    ∧ (git.mergeSquash.ok = true → git.commit.ok = true → git.push.ok = false →
      (mergeTask taskId cfg g git).1 = true
      ∧ MergeEvent.logWarn (taskId ++ ": push failed (will retry on next merge)")
          ∈ (mergeTask taskId cfg g git).2
      ∧ MergeEvent.run (gitCmd cfg ["merge", "--abort"]) ∉ (mergeTask taskId cfg g git).2
      ∧ (∀ cmd, MergeEvent.run cmd ∈ (mergeTask taskId cfg g git).2 →
          cmd ∈ [gitCmd cfg ["branch", "--show-current"],
                 gitCmd cfg ["checkout", cfg.integrationBranch],
                 gitCmd cfg ["merge", "--squash", cfg.branchPfx ++ taskId],
                 gitCmd cfg ["commit", "-m",
                   "feat(" ++ taskId ++ "): "
                     ++ ((tasksLookup g.tasks taskId).map (fun t => t.title)).getD taskId,
                   "--no-edit"],
                 gitCmd cfg ["push", "origin", cfg.integrationBranch]])) := by
  constructor
  · intro h1
    by_cases hcur : git.showCurrentBranch.output.trim ≠ cfg.integrationBranch <;>
      simp [mergeTask, h1, hcur, gitCmd]
  · intro h1 h2 h3
    by_cases hcur : git.showCurrentBranch.output.trim ≠ cfg.integrationBranch <;>
      simp [mergeTask, h1, h2, h3, hcur, gitCmd] <;>
      intro cmd hcmd <;>
      rcases hcmd with rfl | rfl | rfl | rfl | rfl <;> simp

/-- A successful subprocess result. -/
def execOk : ExecResult := { ok := true, stdout := "", stderr := "", output := "main" }

/-- A failing subprocess result. -/
def execFail : ExecResult := { ok := false, stdout := "", stderr := "", output := "" }

/-- Git behavior in which the squash merge conflicts. -/
def gitConflict : GitBehavior :=
  { showCurrentBranch := execOk, checkoutIntegration := execOk, mergeSquash := execFail,
    commit := execOk, push := execOk }

/-- Git behavior in which the merge and commit succeed but the push fails. -/
def gitPushFail : GitBehavior :=
  { showCurrentBranch := execOk, checkoutIntegration := execOk, mergeSquash := execOk,
    commit := execOk, push := execFail }

/-- A concrete worktree configuration. -/
def cfgSample : WorktreeConfig :=
  { projectRoot := "/r", worktreeBase := "/w", branchPfx := "df/", integrationBranch := "main" }

/-- C8 witness: a conflicting squash merge reports failure, and a failed
push after a successful commit still reports success. -/
theorem mergeTask_correct_witness :
    (mergeTask "T001" cfgSample noDepDoc gitConflict).1 = false
    ∧ (mergeTask "T001" cfgSample noDepDoc gitPushFail).1 = true :=
  ⟨((mergeTask_correct "T001" cfgSample noDepDoc gitConflict).1 rfl).1,
   ((mergeTask_correct "T001" cfgSample noDepDoc gitPushFail).2 rfl rfl rfl).1⟩

/-- C9: for an id absent from the document, `amendTask` and
`incrementAttempts` fail with the `Task not found` error and leave the
document unchanged both in memory (`data` is the input document) and on
disk (`saved = false`, no write happens); for a present id, `amendTask`
merges exactly the provided fields into that task, leaving every
unprovided field — and every other task — intact. -/
theorem amendTask_correct (g : TaskGraphData) (taskId : String) (u : TaskUpdates) :
    (tasksLookup g.tasks taskId = none →
      amendTask g taskId u
          = { data := g, saved := false, error := some ("Task not found: " ++ taskId) }
      ∧ incrementAttempts g taskId
          = { data := g, saved := false, error := some ("Task not found: " ++ taskId) })
    ∧ (∀ t, tasksLookup g.tasks taskId = some t →
      (amendTask g taskId u).error = none
      ∧ (amendTask g taskId u).saved = true
      ∧ (amendTask g taskId u).data.project = g.project
      ∧ (amendTask g taskId u).data.tasks
          = g.tasks.map (fun p => if p.1 == taskId then (p.1, applyUpdates p.2 u) else p)
      ∧ (∀ t0 : SlimTask,
          (u.title = none → (applyUpdates t0 u).title = t0.title)
          ∧ (∀ v, u.title = some v → (applyUpdates t0 u).title = v)
          ∧ (u.status = none → (applyUpdates t0 u).status = t0.status)
          ∧ (∀ v, u.status = some v → (applyUpdates t0 u).status = v)
          ∧ (u.dependencies = none → (applyUpdates t0 u).dependencies = t0.dependencies)
          ∧ (∀ v, u.dependencies = some v → (applyUpdates t0 u).dependencies = v)
          ∧ (u.file = none → (applyUpdates t0 u).file = t0.file)
          ∧ (∀ v, u.file = some v → (applyUpdates t0 u).file = v)
          ∧ (u.complexity = none → (applyUpdates t0 u).complexity = t0.complexity)
          ∧ (∀ v, u.complexity = some v → (applyUpdates t0 u).complexity = v)
          ∧ (u.attempts = none → (applyUpdates t0 u).attempts = t0.attempts)
          ∧ (∀ v, u.attempts = some v → (applyUpdates t0 u).attempts = v))) := by
  constructor
  · intro h
    unfold amendTask incrementAttempts
    rw [h]
    exact ⟨rfl, rfl⟩
  · intro t h
    unfold amendTask
    rw [h]
    refine ⟨rfl, rfl, rfl, rfl, ?_⟩
    intro t0
    unfold applyUpdates
    refine ⟨?_, ?_, ?_, ?_, ?_, ?_, ?_, ?_, ?_, ?_, ?_, ?_⟩ <;>
      first
        | (intro hz; rw [hz]; rfl)
        | (intro v hz; rw [hz]; rfl)

/-- An update object providing only a new title. -/
def titleOnlyUpdate : TaskUpdates :=
  { title := some "new", status := none, dependencies := none, file := none,
    complexity := none, attempts := none }

/-- C9 witness: amending an absent id errors and leaves the document
unchanged; amending a present id with a title-only update succeeds,
changes the title, and keeps the other fields. -/
theorem amendTask_correct_witness :
    (amendTask noDepDoc "T999" titleOnlyUpdate
        = { data := noDepDoc, saved := false, error := some ("Task not found: " ++ "T999") }
      ∧ incrementAttempts noDepDoc "T999"
        = { data := noDepDoc, saved := false, error := some ("Task not found: " ++ "T999") })
    ∧ (amendTask noDepDoc "A" titleOnlyUpdate).error = none := by
  refine ⟨(amendTask_correct noDepDoc "T999" titleOnlyUpdate).1 (by decide), ?_⟩
  exact ((amendTask_correct noDepDoc "A" titleOnlyUpdate).2
    { title := "t", status := .pending, dependencies := ["B"], file := "f",
      complexity := .low, attempts := 0 } (by decide)).1

/-- C10: for an id absent from the document, `setStatus` is a silent
no-op: it raises no error (in particular not `NotFound`), leaves the
in-memory document unchanged and does not write to disk. -/
theorem setStatus_missing_noop (g : TaskGraphData) (taskId : String) (status : TaskStatus)
    (h : tasksLookup g.tasks taskId = none) :
    setStatus g taskId status = { data := g, saved := false, error := none } := by
  unfold setStatus
  rw [h]

/-- C10 witness: a concrete absent id. -/
theorem setStatus_missing_noop_witness :
    setStatus noDepDoc "T999" TaskStatus.complete
      = { data := noDepDoc, saved := false, error := none } :=
  setStatus_missing_noop noDepDoc "T999" TaskStatus.complete (by decide)

/-- The `T003` task of `sequentialDoc`. -/
def taskT003 : SlimTask :=
  { title := "c", status := .pending, dependencies := [], file := "f3",
    complexity := .low, attempts := 0 }

/-- C1 witness: on the concrete `sequentialDoc` the ready list is sorted
and `T003` (pending with no dependencies) is a member. -/
theorem readyTasks_correct_witness :
    (readyTasks sequentialDoc).Pairwise (fun a b => readyLe a b = true)
    ∧ mkReadyTask "T003" taskT003 ∈ readyTasks sequentialDoc := by
  refine ⟨(readyTasks_correct sequentialDoc).2.1, ?_⟩
  refine ((readyTasks_correct sequentialDoc).1 _).mpr ?_
  exact ⟨taskT003, by decide, rfl, by intro dep hdep; simp [taskT003] at hdep, rfl⟩

/-- The `T002` task of `sequentialDoc`. -/
def taskT002 : SlimTask :=
  { title := "b", status := .pending, dependencies := ["T001"], file := "f2",
    complexity := .low, attempts := 0 }

/-- C6 witness: in `sequentialDoc`, `T002` depends on `T001`, so `T002`
is in the transitive downstream of `T001`. -/
theorem transitiveDownstream_correct_witness :
    "T002" ∈ transitiveDownstream sequentialDoc "T001" :=
  ((transitiveDownstream_correct sequentialDoc "T001").1 "T002").mpr
    (Downstream.head "T002" ⟨taskT002, by decide, by decide⟩)
